import Mathlib

/-!
Verification development for the radiosity solver (cube.cpp, transfers.cpp,
rendering.cpp).  The numeric domain `FD` is an idealized IEEE double: finite
values are exact rationals, and the special values +inf, -inf and NaN follow
the IEEE-754 propagation and comparison rules (comparisons with NaN are
false, 0 * inf = NaN, x / 0 = ±inf for x ≠ 0 and NaN for x = 0, fmax drops
a NaN argument, std::max(a, b) keeps its first argument when the comparison
fails).  Rounding of finite arithmetic is not modelled.
-/

namespace Radiosity

/-- Idealized IEEE double value: exact rational, +infinity, -infinity or NaN. -/
inductive FD where
  | fin (q : ℚ)
  | pinf
  | ninf
  | nan
  deriving DecidableEq, Repr

/-- IEEE addition on idealized doubles. -/
def addFD : FD → FD → FD
  | .fin a, .fin b => .fin (a + b)
  | .fin _, .pinf => .pinf
  | .fin _, .ninf => .ninf
  | .fin _, .nan => .nan
  | .pinf, .fin _ => .pinf
  | .pinf, .pinf => .pinf
  | .pinf, .ninf => .nan
  | .pinf, .nan => .nan
  | .ninf, .fin _ => .ninf
  | .ninf, .pinf => .nan
  | .ninf, .ninf => .ninf
  | .ninf, .nan => .nan
  | .nan, _ => .nan

/-- IEEE negation. -/
def negFD : FD → FD
  | .fin a => .fin (-a)
  | .pinf => .ninf
  | .ninf => .pinf
  | .nan => .nan

/-- IEEE subtraction. -/
def subFD (a b : FD) : FD := addFD a (negFD b)

/-- IEEE multiplication; 0 × ∞ is NaN. -/
def mulFD : FD → FD → FD
  | .fin a, .fin b => .fin (a * b)
  | .fin a, .pinf => if 0 < a then .pinf else if a < 0 then .ninf else .nan
  | .fin a, .ninf => if 0 < a then .ninf else if a < 0 then .pinf else .nan
  | .fin _, .nan => .nan
  | .pinf, .fin b => if 0 < b then .pinf else if b < 0 then .ninf else .nan
  | .pinf, .pinf => .pinf
  | .pinf, .ninf => .ninf
  | .pinf, .nan => .nan
  | .ninf, .fin b => if 0 < b then .ninf else if b < 0 then .pinf else .nan
  | .ninf, .pinf => .ninf
  | .ninf, .ninf => .pinf
  | .ninf, .nan => .nan
  | .nan, _ => .nan

/-- IEEE division; finite / 0 is ±∞ (NaN for 0 / 0), finite / ∞ is 0. -/
def divFD : FD → FD → FD
  | .fin a, .fin b =>
      if b = 0 then (if 0 < a then .pinf else if a < 0 then .ninf else .nan)
      else .fin (a / b)
  | .fin _, .pinf => .fin 0
  | .fin _, .ninf => .fin 0
  | .fin _, .nan => .nan
  | .pinf, .fin b => if b < 0 then .ninf else .pinf
  | .pinf, .pinf => .nan
  | .pinf, .ninf => .nan
  | .pinf, .nan => .nan
  | .ninf, .fin b => if b < 0 then .pinf else .ninf
  | .ninf, .pinf => .nan
  | .ninf, .ninf => .nan
  | .ninf, .nan => .nan
  | .nan, _ => .nan

/-- IEEE strict less-than: every comparison involving NaN is false. -/
def ltFD : FD → FD → Bool
  | .fin a, .fin b => decide (a < b)
  | .fin _, .pinf => true
  | .fin _, .ninf => false
  | .fin _, .nan => false
  | .pinf, _ => false
  | .ninf, .fin _ => true
  | .ninf, .pinf => true
  | .ninf, .ninf => false
  | .ninf, .nan => false
  | .nan, _ => false

/-- IEEE less-or-equal: every comparison involving NaN is false. -/
def leFD : FD → FD → Bool
  | .fin a, .fin b => decide (a ≤ b)
  | .fin _, .pinf => true
  | .fin _, .ninf => false
  | .fin _, .nan => false
  | .pinf, .pinf => true
  | .pinf, _ => false
  | .ninf, .fin _ => true
  | .ninf, .pinf => true
  | .ninf, .ninf => true
  | .ninf, .nan => false
  | .nan, _ => false

/-- `a > b` as the code writes it, i.e. `ltFD b a`. -/
def gtFD (a b : FD) : Bool := ltFD b a

/-- `a ≥ b` as the code writes it, i.e. `leFD b a`. -/
def geFD (a b : FD) : Bool := leFD b a

/-- C `fabs`. -/
def fabsFD : FD → FD
  | .fin a => .fin |a|
  | .pinf => .pinf
  | .ninf => .pinf
  | .nan => .nan

/-- C `fmax`: when one argument is NaN the other argument is returned. -/
def fmaxFD : FD → FD → FD
  | .nan, b => b
  | a, .nan => a
  | a, b => if leFD a b then b else a

/-- C++ `std::max(a, b)`, literally `a < b ? b : a`; keeps `a` when the
comparison involves NaN. -/
def stdMaxFD (a b : FD) : FD := if ltFD a b then b else a

/-- Iterated IEEE multiplication, for `std::pow` at a natural exponent. -/
def powFD (x : FD) : Nat → FD
  | 0 => .fin 1
  | n + 1 => mulFD x (powFD x n)

/-- IEEE square root, parameterized by an abstract square-root function on
the non-negative rationals (exact square roots are irrational in general;
theorems only use the sign contract `SqrtOK`). -/
def sqrtFD (sq : ℚ → ℚ) : FD → FD
  | .fin q => if q < 0 then .nan else .fin (sq q)
  | .pinf => .pinf
  | .ninf => .nan
  | .nan => .nan

/-- The facts about the abstract square root that the theorems rely on:
it is zero at zero and positive on positives. -/
def SqrtOK (sq : ℚ → ℚ) : Prop := sq 0 = 0 ∧ ∀ q : ℚ, 0 < q → 0 < sq q

/-- `x` is a finite (non-special) value. -/
def FD.isFinB : FD → Bool
  | .fin _ => true
  | _ => false

theorem addFD_assoc (a b c : FD) :
    addFD (addFD a b) c = addFD a (addFD b c) := by
  cases a <;> cases b <;> cases c <;> simp [addFD] <;> ring

theorem addFD_comm (a b : FD) : addFD a b = addFD b a := by
  cases a <;> cases b <;> simp [addFD] <;> ring

theorem addFD_zero (a : FD) : addFD a (.fin 0) = a := by
  cases a <;> simp [addFD]

theorem zero_addFD (a : FD) : addFD (.fin 0) a = a := by
  cases a <;> simp [addFD]

instance : Zero FD := ⟨.fin 0⟩

instance : Add FD := ⟨addFD⟩

instance : AddCommMonoid FD where
  add_assoc := addFD_assoc
  zero_add := zero_addFD
  add_zero := addFD_zero
  add_comm := addFD_comm
  nsmul := nsmulRec

theorem addFD_eq_add (a b : FD) : addFD a b = a + b := rfl

theorem zero_eq_fin0 : (0 : FD) = .fin 0 := rfl

/-- Modelled from the spec: a Vertex is "a 3D point (x, y, z)"; the same
type serves for direction vectors (the `Vertex` arithmetic of the missing
geom.h). -/
structure Vec3 where
  x : FD
  y : FD
  z : FD
  deriving DecidableEq, Repr

/-- Modelled from the spec: component-wise vector subtraction (geom.h
`Vertex` operator-). -/
def subV (u v : Vec3) : Vec3 := ⟨subFD u.x v.x, subFD u.y v.y, subFD u.z v.z⟩

/-- Modelled from the spec: scaling a vector by a scalar (geom.h `Vertex`
operator*). -/
def scaleV (u : Vec3) (s : FD) : Vec3 := ⟨mulFD u.x s, mulFD u.y s, mulFD u.z s⟩

/-- Modelled from the spec: the dot product (geom.h `dot`). -/
def dotV (u v : Vec3) : FD :=
  addFD (addFD (mulFD u.x v.x) (mulFD u.y v.y)) (mulFD u.z v.z)

/-- Modelled from the spec: Euclidean length (geom.h `Vertex::len`),
parameterized by the abstract square root. -/
def lenV (sq : ℚ → ℚ) (u : Vec3) : FD := sqrtFD sq (dotV u u)

/-- Modelled from the spec: normalization to unit length (geom.h
`Vertex::norm`), dividing each component by the length. -/
def normV (sq : ℚ → ℚ) (u : Vec3) : Vec3 :=
  let l := lenV sq u
  ⟨divFD u.x l, divFD u.y l, divFD u.z l⟩

/-- All three coordinates are finite. -/
def Vec3.isFinB (v : Vec3) : Bool := v.x.isFinB && v.y.isFinB && v.z.isFinB

/-- Modelled from the spec: an RGB colour (geom.h `Colour`),
"multiplicative reflectance per RGB channel" / "current radiance estimate
per RGB channel". -/
structure Colour where
  r : FD
  g : FD
  b : FD
  deriving DecidableEq, Repr

/-- Modelled from the spec: component-wise colour addition (geom.h
`Colour` operator+ / operator+=; `Colour incoming;` starts at zero). -/
def addC (c d : Colour) : Colour := ⟨addFD c.r d.r, addFD c.g d.g, addFD c.b d.b⟩

/-- Modelled from the spec: "component-wise multiply" of colours (geom.h
`Colour` operator* on colours). -/
def mulC (c d : Colour) : Colour := ⟨mulFD c.r d.r, mulFD c.g d.g, mulFD c.b d.b⟩

/-- Modelled from the spec: scaling a colour by a scalar (geom.h `Colour`
operator* with a double). -/
def smulC (c : Colour) (s : FD) : Colour := ⟨mulFD c.r s, mulFD c.g s, mulFD c.b s⟩

/-- Modelled from the spec: the all-zero colour (default-constructed
geom.h `Colour`; the solver's `incoming` sum starts from it). -/
def zeroC : Colour := ⟨.fin 0, .fin 0, .fin 0⟩

/-- The full-intensity white `Colour(1.0, 1.0, 1.0)` (cube.cpp line 64). -/
def whiteC : Colour := ⟨.fin 1, .fin 1, .fin 1⟩

theorem addC_assoc (c d e : Colour) : addC (addC c d) e = addC c (addC d e) := by
  simp [addC, addFD_assoc]

theorem addC_comm (c d : Colour) : addC c d = addC d c := by
  simp [addC]
  exact ⟨addFD_comm _ _, addFD_comm _ _, addFD_comm _ _⟩

theorem addC_zero (c : Colour) : addC c zeroC = c := by
  simp [addC, zeroC, addFD_zero]

theorem zero_addC (c : Colour) : addC zeroC c = c := by
  simp [addC, zeroC, zero_addFD]

instance : Zero Colour := ⟨zeroC⟩

instance : Add Colour := ⟨addC⟩

instance : AddCommMonoid Colour where
  add_assoc := addC_assoc
  zero_add := zero_addC
  add_zero := addC_zero
  add_comm := addC_comm
  nsmul := nsmulRec

theorem addC_eq_add (c d : Colour) : addC c d = c + d := rfl

theorem zeroC_eq_zero : zeroC = (0 : Colour) := rfl

/-- Modelled from the spec: a surface element ("patch", geom.h `Quad`) —
four vertex indices plus the per-element attributes of the spec's data
model. -/
structure Quad where
  v0 : Nat
  v1 : Nat
  v2 : Nat
  v3 : Nat
  materialColour : Colour
  screenColour : Colour
  isEmitter : Bool
  isSpecular : Bool
  deriving DecidableEq, Repr

/-- Default element used for out-of-range vector indexing. -/
def defQuad : Quad := ⟨0, 0, 0, 0, zeroC, zeroC, false, false⟩

/-- Modelled from the spec: the "element-area and element-centroid/normal
queries" supplied by the external Surface Element Model collaborator
(geom.h `paraCentre`, `paraCross`, `paraArea`).  They are geometry-only:
they depend on an element's vertex indices and the vertex list, never on
its colours or flags. -/
structure Geom where
  centreQ : Nat × Nat × Nat × Nat → List Vec3 → Vec3
  crossQ : Nat × Nat × Nat × Nat → List Vec3 → Vec3
  areaQ : Nat × Nat × Nat × Nat → List Vec3 → FD

/-- `paraCentre(q, vs)`: centroid of the element. -/
def paraCentre (g : Geom) (q : Quad) (vs : List Vec3) : Vec3 :=
  g.centreQ (q.v0, q.v1, q.v2, q.v3) vs

/-- `paraCross(q, vs)`: outward normal of the element. -/
def paraCross (g : Geom) (q : Quad) (vs : List Vec3) : Vec3 :=
  g.crossQ (q.v0, q.v1, q.v2, q.v3) vs

/-- `paraArea(q, vs)`: area of the element. -/
def paraArea (g : Geom) (q : Quad) (vs : List Vec3) : FD :=
  g.areaQ (q.v0, q.v1, q.v2, q.v3) vs

/-- Modelled from the spec: a `Camera` (camera.h) — eye position, look-at
point and up vector; the transfer calculators only read the first two. -/
structure Camera where
  eyePos : Vec3
  lookAt : Vec3
  upV : Vec3

/-- `CONVERGENCE_TARGET = 0.001` (cube.cpp line 26). -/
def convergenceTarget : FD := .fin (1 / 1000)

/-- `iterateLighting` (cube.cpp lines 54-81): one pass of the iterative
light solver.  New colours are accumulated into a separate
`updatedColours` buffer read from the pre-iteration `screenColour`s, and
written back only after every element's value is computed. -/
def iterateLighting (qs : List Quad) (transfers : List FD) : List Quad :=
  let n := qs.length
  let updatedColours : List Colour := (List.range n).map (fun i =>
    let qi := qs.getD i defQuad
    let incoming : Colour :=
      if qi.isEmitter then
        whiteC
      else
        (List.range n).foldl (fun acc j =>
          if i = j then acc
          else addC acc (smulC (qs.getD j defQuad).screenColour
                               (transfers.getD (i * n + j) (.fin 0)))) zeroC
    mulC incoming qi.materialColour)
  (List.range n).map (fun i =>
    { qs.getD i defQuad with screenColour := updatedColours.getD i zeroC })

/-- `calcLight` (cube.cpp lines 153-161): total scene light as the
area-weighted sum of a greyscale reduction of `screenColour`.  The
greyscale reduction `Colour::asGrey` lives in the missing geom.h and is
modelled from the spec as an abstract parameter `grey`. -/
def calcLight (grey : Colour → FD) (g : Geom) (qs : List Quad) (vs : List Vec3) : FD :=
  qs.foldl (fun acc q => addFD acc (mulFD (grey q.screenColour) (paraArea g q vs)))
    (.fin 0)

/-- `k` applications of `iterateLighting` with a fixed transfer matrix. -/
def iterN (transfers : List FD) (qs : List Quad) : Nat → List Quad
  | 0 => qs
  | k + 1 => iterateLighting (iterN transfers qs k) transfers

/-- The value of the `light` variable of `main` after `k` loop iterations:
zero initially, afterwards the total light of the `k`-times-iterated
scene. -/
def lightAt (grey : Colour → FD) (g : Geom) (transfers : List FD) (qs : List Quad)
    (vs : List Vec3) : Nat → FD
  | 0 => .fin 0
  | k + 1 => calcLight grey g (iterN transfers qs (k + 1)) vs

/-- `relChange = fabs(light / newLight - 1.0)` as evaluated during the
`m+1`-st loop iteration of `main` (cube.cpp line 217). -/
def relStep (grey : Colour → FD) (g : Geom) (transfers : List FD) (qs : List Quad)
    (vs : List Vec3) (m : Nat) : FD :=
  fabsFD (subFD (divFD (lightAt grey g transfers qs vs m)
                       (lightAt grey g transfers qs vs (m + 1))) (.fin 1))

/-- The `do { iterateLighting; calcLight; relChange; } while (relChange >
CONVERGENCE_TARGET)` loop of `main` (cube.cpp lines 214-220), with a fuel
bound since the source loop has no iteration cap.  Returns the final
element list and the number of loop iterations executed. -/
def solveLoop (grey : Colour → FD) (g : Geom) (vs : List Vec3) (transfers : List FD) :
    Nat → List Quad → FD → List Quad × Nat
  | 0, qs, _ => (qs, 0)
  | fuel + 1, qs, light =>
    let qs1 := iterateLighting qs transfers
    let newLight := calcLight grey g qs1 vs
    let relChange := fabsFD (subFD (divFD light newLight) (.fin 1))
    if gtFD relChange convergenceTarget then
      let r := solveLoop grey g vs transfers fuel qs1 newLight
      (r.1, r.2 + 1)
    else
      (qs1, 1)

/-- `specularPower = 32.0f` (cube.cpp line 96), as a natural exponent. -/
def specularPower : Nat := 32

/-- `specularFactor = 0.02f` (cube.cpp line 97). -/
def specularFactor : FD := .fin (1 / 50)

/-- The Phong dot product `dot(reflectedVector, viewVector)` computed by
`computeSpecularity` (cube.cpp lines 116-135) for receiver `i` and source
`j`. -/
def specularDot (sq : ℚ → ℚ) (g : Geom) (pos : Vec3) (qs : List Quad)
    (vs : List Vec3) (i j : Nat) : FD :=
  let qi := qs.getD i defQuad
  let qj := qs.getD j defQuad
  let lightVector := normV sq (subV (paraCentre g qi vs) (paraCentre g qj vs))
  let normalVector := normV sq (paraCross g qi vs)
  let dotProduct := mulFD (.fin 2) (dotV normalVector lightVector)
  let reflectedVector := normV sq (subV (scaleV normalVector dotProduct) lightVector)
  let viewVector := scaleV (normV sq (subV pos (paraCentre g qi vs))) (.fin (-1))
  dotV reflectedVector viewVector

/-- The white specular contribution one emitter `j` adds to receiver `i`:
`whiteLight * pow(max(dot, 0.0f), 32) * 0.02f` (cube.cpp lines 135-136). -/
def specularTerm (sq : ℚ → ℚ) (g : Geom) (pos : Vec3) (qs : List Quad)
    (vs : List Vec3) (i j : Nat) : Colour :=
  smulC (smulC whiteC
      (powFD (stdMaxFD (specularDot sq g pos qs vs i j) (.fin 0)) specularPower))
    specularFactor

/-- `computeSpecularity` (cube.cpp lines 83-149): a single additive Phong
pass over the converged radiance.  `pos` is the camera position returned by
`getCameraPos()`. -/
def computeSpecularity (sq : ℚ → ℚ) (g : Geom) (pos : Vec3) (qs : List Quad)
    (vs : List Vec3) : List Quad :=
  let n := qs.length
  let updatedColours : List Colour := (List.range n).map (fun i =>
    let qi := qs.getD i defQuad
    if qi.isSpecular = false then
      qi.screenColour
    else
      let incoming : Colour := (List.range n).foldl (fun acc j =>
        if i = j then acc
        else if (qs.getD j defQuad).isEmitter then
          addC acc (specularTerm sq g pos qs vs i j)
        else acc) zeroC
      addC qi.screenColour incoming)
  (List.range n).map (fun i =>
    { qs.getD i defQuad with screenColour := updatedColours.getD i zeroC })

/-- `facesUs` (rendering.cpp lines 132-136): the element is front-facing
for the camera at `camPos`. -/
def facesUs (g : Geom) (camPos : Vec3) (q : Quad) (vs : List Vec3) : Bool :=
  gtFD (dotV (subV (paraCentre g q vs) camPos) (paraCross g q vs)) (.fin 0)

/-- The scan of `normaliseBrightness` (rendering.cpp lines 143-152):
maximum channel value over front-facing non-emitter elements, chained with
`std::max` from `0.0`. -/
def visMax (g : Geom) (camPos : Vec3) (qs : List Quad) (vs : List Vec3) : FD :=
  qs.foldl (fun m q =>
    if !q.isEmitter && facesUs g camPos q vs then
      stdMaxFD (stdMaxFD (stdMaxFD m q.screenColour.r) q.screenColour.g)
        q.screenColour.b
    else m) (.fin 0)

/-- The scale factor of `normaliseBrightness`:
`max < TARGET ? TARGET / max : 1.0` (rendering.cpp line 154). -/
def normScale (g : Geom) (camPos : Vec3) (qs : List Quad) (vs : List Vec3) : FD :=
  if ltFD (visMax g camPos qs vs) (.fin 1) then
    divFD (.fin 1) (visMax g camPos qs vs)
  else .fin 1

/-- `normaliseBrightness` (rendering.cpp lines 139-161) with
`TARGET = 1.0`: scale all non-emitters by `TARGET / max` when the visible
maximum is below target, else by `1.0`. -/
def normaliseBrightness (g : Geom) (camPos : Vec3) (qs : List Quad)
    (vs : List Vec3) : List Quad :=
  qs.map (fun q =>
    if q.isEmitter then q
    else { q with screenColour := smulC q.screenColour (normScale g camPos qs vs) })

/-- The channel values that `visMax` scans, in scan order: the three
channels of every front-facing non-emitter element. -/
def visChannels (g : Geom) (camPos : Vec3) (qs : List Quad) (vs : List Vec3) :
    List FD :=
  (qs.map (fun q =>
    if !q.isEmitter && facesUs g camPos q vs then
      [q.screenColour.r, q.screenColour.g, q.screenColour.b]
    else [])).flatten

/-- The emitter-placement test of `initLighting` (cube.cpp line 41) exactly
as the source parses: relational comparisons bind tighter than `&`, and `&`
binds tighter than `&&`, so the expression is
`A && ((B as int & C as int) != 0)`. -/
def emitterTestSrc (c : Vec3) : Bool :=
  ltFD (fabsFD c.x) (.fin (1 / 2)) &&
    decide (((ltFD (fabsFD c.z) (.fin (1 / 2))).toNat &&&
             (gtFD c.y (.fin (9 / 10))).toNat) ≠ 0)

/-- Modelled from the spec: the "fully parenthesized logical AND of the
three comparisons" that the emitter-placement test apparently intends. -/
def emitterTestSpec (c : Vec3) : Bool :=
  ltFD (fabsFD c.x) (.fin (1 / 2)) && ltFD (fabsFD c.z) (.fin (1 / 2)) &&
    gtFD c.y (.fin (9 / 10))

/-- `initLighting` (cube.cpp lines 35-52): place the big light using the
source's emitter test, then tint the left wall red and the right wall
blue. -/
def initLighting (g : Geom) (qs : List Quad) (vs : List Vec3) : List Quad :=
  qs.map (fun q =>
    let c := paraCentre g q vs
    let q1 :=
      if emitterTestSrc c then
        { q with materialColour := ⟨.fin 2, .fin 2, .fin 2⟩,
                 screenColour := ⟨.fin 2, .fin 2, .fin 2⟩,
                 isEmitter := true }
      else q
    if ltFD c.x (.fin (-(999 / 1000))) then
      { q1 with materialColour := mulC q1.materialColour ⟨.fin 1, .fin (1 / 2), .fin (1 / 2)⟩ }
    else if gtFD c.x (.fin (999 / 1000)) then
      { q1 with materialColour := mulC q1.materialColour ⟨.fin (1 / 2), .fin (1 / 2), .fin 1⟩ }
    else q1)

/-- `AnalyticTransferCalculator::calcSingleQuadLight` (transfers.cpp lines
295-318).  `piQ` stands for the finite double constant `M_PI`. -/
def calcSingleQuadLight (sq : ℚ → ℚ) (piQ : ℚ) (g : Geom) (vs : List Vec3)
    (cam : Camera) (quad : Quad) : FD :=
  let eyePos := cam.eyePos
  let centre := paraCentre g quad vs
  let dir := subV centre eyePos
  let l := lenV sq dir
  let r2 := divFD (.fin 1) (mulFD l l)
  let dirN := normV sq dir
  let nrm := paraCross g quad vs
  let area := fmaxFD (.fin 0) (dotV nrm dirN)
  let lookVec := normV sq (subV cam.lookAt eyePos)
  let cosCamAngle := fmaxFD (.fin 0) (dotV lookVec dirN)
  divFD (mulFD (mulFD cosCamAngle r2) area) (.fin piQ)

/-- `AnalyticTransferCalculator::calcSingleQuadSubtended` (transfers.cpp
lines 244-262). -/
def calcSingleQuadSubtended (sq : ℚ → ℚ) (piQ : ℚ) (g : Geom) (vs : List Vec3)
    (cam : Camera) (quad : Quad) : FD :=
  let centre := paraCentre g quad vs
  let dir := subV centre cam.eyePos
  let l := lenV sq dir
  let r2 := divFD (.fin 1) (mulFD l l)
  let dirN := normV sq dir
  let nrm := paraCross g quad vs
  let area := fmaxFD (.fin 0) (dotV nrm dirN)
  divFD (mulFD (mulFD (.fin (3 / 2)) r2) area) (.fin piQ)

/-- `AnalyticTransferCalculator::calcAllLights` (transfers.cpp lines
264-283): for every target element `i`, a camera at its centroid looking
along the negated normal, then one `calcSingleQuadLight` for every source
element `j` — including `j = i` — appended in row-major order. -/
def analyticCalcAllLights (sq : ℚ → ℚ) (piQ : ℚ) (g : Geom) (vs : List Vec3)
    (fcs : List Quad) : List FD :=
  let n := fcs.length
  ((List.range n).map (fun i =>
    let currQuad := fcs.getD i defQuad
    let eye := paraCentre g currQuad vs
    let lookAt := subV eye (paraCross g currQuad vs)
    let cam : Camera := ⟨eye, lookAt, ⟨.fin 0, .fin 0, .fin 0⟩⟩
    (List.range n).map (fun j =>
      calcSingleQuadLight sq piQ g vs cam (fcs.getD j defQuad)))).flatten

/-- Row-major access `weights[i * n + j]` into the flattened transfer
matrix. -/
def transferAt (weights : List FD) (n i j : Nat) : FD :=
  weights.getD (i * n + j) (.fin 0)

/-- `x` is `+∞` or a non-negative finite value. -/
def NonnegFD (x : FD) : Prop := x = .pinf ∨ ∃ q : ℚ, 0 ≤ q ∧ x = .fin q

/-- A concrete square root valid for the sign contract `SqrtOK`. -/
def sqTest : ℚ → ℚ := fun q => if 0 < q then 1 else 0

/-- A geometry query that puts every element's centroid at the origin
(coincident centroids), with unit normal and unit area. -/
def cxGeom : Geom :=
  ⟨fun _ _ => ⟨.fin 0, .fin 0, .fin 0⟩, fun _ _ => ⟨.fin 1, .fin 0, .fin 0⟩,
    fun _ _ => .fin 1⟩

/-- A geometry query with two distinct centroids, selected by the first
vertex index, with unit normal and unit area. -/
def cx2Geom : Geom :=
  ⟨fun t _ => if t.1 = 0 then ⟨.fin 0, .fin 0, .fin 0⟩ else ⟨.fin 1, .fin 0, .fin 0⟩,
    fun _ _ => ⟨.fin 1, .fin 0, .fin 0⟩, fun _ _ => .fin 1⟩

/-- A specular receiver and an emitter whose centroids `cxGeom` makes
coincident. -/
def cxSpecQuads : List Quad :=
  [{ defQuad with isSpecular := true }, { defQuad with isEmitter := true }]

/-- A single non-emitter element with visible maximum channel 1/2. -/
def cxHalfQuad : Quad :=
  { defQuad with screenColour := ⟨.fin (1 / 2), .fin 0, .fin 0⟩ }

/-- A concrete greyscale reduction: the red channel. -/
def cxGrey : Colour → FD := fun c => c.r

/-- A white emitter element. -/
def cxEmitQuad : Quad :=
  { defQuad with materialColour := whiteC, screenColour := whiteC,
                 isEmitter := true }

/-- An element whose first vertex index selects `cx2Geom`'s second
centroid. -/
def cx1Quad : Quad := { defQuad with v0 := 1 }

theorem getD_map_range {α : Type} (f : Nat → α) (n i : Nat) (d : α) (h : i < n) :
    ((List.range n).map f).getD i d = f i := by
  simp [List.getD_eq_getElem?_getD, List.getElem?_map, List.getElem?_range, h]

theorem foldl_skip_add {M : Type} [AddCommMonoid M] (i : Nat) (f : Nat → M) :
    ∀ (n : Nat) (a : M),
      (List.range n).foldl (fun acc j => if i = j then acc else acc + f j) a =
        a + ∑ j ∈ (Finset.range n).erase i, f j := by
  intro n
  induction n with
  | zero => intro a; simp
  | succ n ih =>
    intro a
    rw [List.range_succ, List.foldl_append, List.foldl_cons, List.foldl_nil, ih]
    by_cases hin : i = n
    · subst hin
      rw [if_pos rfl, Finset.range_succ, Finset.erase_insert (Finset.not_mem_range_self),
        Finset.erase_eq_of_not_mem (Finset.not_mem_range_self)]
    · rw [if_neg hin, Finset.range_succ,
        Finset.erase_insert_of_ne (fun h => hin h.symm),
        Finset.sum_insert (fun h => Finset.not_mem_range_self (Finset.mem_of_mem_erase h)),
        add_assoc, add_comm (f n)]

theorem foldl_skip_filter_add {M : Type} [AddCommMonoid M] (i : Nat)
    (p : Nat → Bool) (f : Nat → M) :
    ∀ (n : Nat) (a : M),
      (List.range n).foldl
        (fun acc j => if i = j then acc else if p j then acc + f j else acc) a =
        a + ∑ j ∈ ((Finset.range n).erase i).filter (fun j => p j = true), f j := by
  intro n
  induction n with
  | zero => intro a; simp
  | succ n ih =>
    intro a
    rw [List.range_succ, List.foldl_append, List.foldl_cons, List.foldl_nil, ih]
    by_cases hin : i = n
    · subst hin
      rw [if_pos rfl, Finset.range_succ, Finset.erase_insert (Finset.not_mem_range_self),
        Finset.erase_eq_of_not_mem (Finset.not_mem_range_self)]
    · rw [if_neg hin, Finset.range_succ,
        Finset.erase_insert_of_ne (fun h => hin h.symm), Finset.filter_insert]
      by_cases hp : p n = true
      · rw [if_pos hp, if_pos hp,
          Finset.sum_insert (fun h => Finset.not_mem_range_self
            (Finset.mem_of_mem_erase (Finset.mem_of_mem_filter _ h))),
          add_assoc, add_comm (f n)]
      · rw [if_neg hp, if_neg hp]

/-- Per-element description of one `iterateLighting` pass: element `i` keeps
all its fields except `screenColour`, which becomes the incoming light (a
fixed white for emitters, the transfer-weighted sum of the other elements'
pre-iteration colours otherwise) times its own material colour. -/
theorem iterateLighting_getD (qs : List Quad) (transfers : List FD) (i : Nat)
    (hi : i < qs.length) :
    (iterateLighting qs transfers).getD i defQuad =
      { qs.getD i defQuad with
        screenColour :=
          mulC (if (qs.getD i defQuad).isEmitter then whiteC
                else ∑ j ∈ (Finset.range qs.length).erase i,
                  smulC (qs.getD j defQuad).screenColour
                    (transfers.getD (i * qs.length + j) (.fin 0)))
            (qs.getD i defQuad).materialColour } := by
  unfold iterateLighting
  rw [getD_map_range _ _ _ _ hi, getD_map_range _ _ _ _ hi]
  dsimp only
  by_cases he : (qs.getD i defQuad).isEmitter
  · rw [if_pos he, if_pos he]
  · rw [if_neg he, if_neg he]
    congr 2
    have h := foldl_skip_add i
      (fun j => smulC (qs.getD j defQuad).screenColour
        (transfers.getD (i * qs.length + j) (.fin 0))) qs.length zeroC
    simp only [addC_eq_add] at h ⊢
    rw [h]
    exact zero_addC _

theorem iterateLighting_length (qs : List Quad) (transfers : List FD) :
    (iterateLighting qs transfers).length = qs.length := by
  simp [iterateLighting]

theorem iterN_length (transfers : List FD) (qs : List Quad) (k : Nat) :
    (iterN transfers qs k).length = qs.length := by
  induction k with
  | zero => rfl
  | succ k ih => rw [iterN, iterateLighting_length, ih]

theorem iterN_preserves (transfers : List FD) (qs : List Quad) (k i : Nat)
    (hi : i < qs.length) :
    ((iterN transfers qs k).getD i defQuad).materialColour =
      (qs.getD i defQuad).materialColour ∧
    ((iterN transfers qs k).getD i defQuad).isEmitter =
      (qs.getD i defQuad).isEmitter := by
  induction k with
  | zero => exact ⟨rfl, rfl⟩
  | succ k ih =>
    rw [iterN, iterateLighting_getD _ _ _ (by rw [iterN_length]; exact hi)]
    exact ih

/-- C1: one step of the iterative light solver gives every element `i` the
new radiance `incoming × materialColour[i]`, where `incoming` is the fixed
white `(1,1,1)` for emitters and otherwise the sum over all `j ≠ i` of
`screenColour[j] × T[i][j]`; every new value is a function of the
pre-iteration `screenColour`s only (the right-hand side reads the input
list), and the pass returns a same-length list holding the new values. -/
theorem iterateLighting_step (qs : List Quad) (transfers : List FD) (i : Nat)
    (hi : i < qs.length) :
    ((iterateLighting qs transfers).getD i defQuad).screenColour =
      mulC (if (qs.getD i defQuad).isEmitter then whiteC
            else ∑ j ∈ (Finset.range qs.length).erase i,
              smulC (qs.getD j defQuad).screenColour
                (transferAt transfers qs.length i j))
        (qs.getD i defQuad).materialColour ∧
    (iterateLighting qs transfers).length = qs.length := by
  refine ⟨?_, iterateLighting_length qs transfers⟩
  rw [iterateLighting_getD qs transfers i hi]
  rfl

theorem iterateLighting_step_witness :
    0 < [defQuad].length ∧
      ((iterateLighting [defQuad] []).getD 0 defQuad).screenColour =
        mulC (if ([defQuad].getD 0 defQuad).isEmitter then whiteC
              else ∑ j ∈ (Finset.range [defQuad].length).erase 0,
                smulC ([defQuad].getD j defQuad).screenColour
                  (transferAt [] [defQuad].length 0 j))
          ([defQuad].getD 0 defQuad).materialColour ∧
      (iterateLighting [defQuad] []).length = [defQuad].length :=
  ⟨by decide, iterateLighting_step [defQuad] [] 0 (by decide)⟩

/-- C8: an element flagged `isEmitter` reports the same radiance — the
fixed white `(1,1,1)` times its own material colour — after every solver
iteration, for every transfer matrix and independently of every other
element's state. -/
theorem emitter_invariant (qs : List Quad) (transfers : List FD) (i k : Nat)
    (hi : i < qs.length) (he : (qs.getD i defQuad).isEmitter = true)
    (hk : 1 ≤ k) :
    ((iterN transfers qs k).getD i defQuad).screenColour =
      mulC whiteC (qs.getD i defQuad).materialColour := by
  cases k with
  | zero => omega
  | succ k =>
    rw [iterN, iterateLighting_getD _ _ _ (by rw [iterN_length]; exact hi)]
    have hp := iterN_preserves transfers qs k i hi
    simp only [hp.1, hp.2, he, if_pos]

theorem emitter_invariant_witness :
    0 < [{ defQuad with isEmitter := true }].length ∧
      ([{ defQuad with isEmitter := true }].getD 0 defQuad).isEmitter = true ∧
      ((iterN [] [{ defQuad with isEmitter := true }] 1).getD 0 defQuad).screenColour =
        mulC whiteC ([{ defQuad with isEmitter := true }].getD 0 defQuad).materialColour :=
  ⟨by decide, by decide,
    emitter_invariant [{ defQuad with isEmitter := true }] [] 0 1 (by decide)
      (by decide) (by decide)⟩

/-- C9: the emitter-placement test of `initLighting`, written with a
bitwise AND between the second and third comparisons, selects exactly the
same centres as the fully parenthesized logical AND of the three
comparisons. -/
theorem emitter_test_equiv (c : Vec3) : emitterTestSrc c = emitterTestSpec c := by
  have h : ∀ a b d : Bool,
      (a && decide ((b.toNat &&& d.toNat) ≠ 0)) = (a && b && d) := by decide
  unfold emitterTestSrc emitterTestSpec
  exact h _ _ _

/-- Per-element description of `computeSpecularity`: element `i` keeps all
its fields except `screenColour`; a non-specular element keeps its colour,
a specular one gets the white Phong terms of all other emitter elements
added on top. -/
theorem computeSpecularity_getD (sq : ℚ → ℚ) (g : Geom) (pos : Vec3)
    (qs : List Quad) (vs : List Vec3) (i : Nat) (hi : i < qs.length) :
    (computeSpecularity sq g pos qs vs).getD i defQuad =
      { qs.getD i defQuad with
        screenColour :=
          if (qs.getD i defQuad).isSpecular = false then
            (qs.getD i defQuad).screenColour
          else
            addC (qs.getD i defQuad).screenColour
              (∑ j ∈ ((Finset.range qs.length).erase i).filter
                  (fun j => (qs.getD j defQuad).isEmitter = true),
                specularTerm sq g pos qs vs i j) } := by
  unfold computeSpecularity
  rw [getD_map_range _ _ _ _ hi, getD_map_range _ _ _ _ hi]
  dsimp only
  by_cases hs : (qs.getD i defQuad).isSpecular = false
  · rw [if_pos hs, if_pos hs]
  · rw [if_neg hs, if_neg hs]
    have h := foldl_skip_filter_add i (fun j => (qs.getD j defQuad).isEmitter)
      (fun j => specularTerm sq g pos qs vs i j) qs.length zeroC
    simp only [addC_eq_add] at h ⊢
    rw [h, zeroC_eq_zero, zero_add]

theorem computeSpecularity_length (sq : ℚ → ℚ) (g : Geom) (pos : Vec3)
    (qs : List Quad) (vs : List Vec3) :
    (computeSpecularity sq g pos qs vs).length = qs.length := by
  simp [computeSpecularity]

/-- C7: the specular pass keeps every non-specular element's `screenColour`
exactly unchanged, and gives every specular element its old colour plus,
for exactly the emitter elements among the other elements, the white
additive term `max(0, dot(reflection, view))^32 × 0.02` (`specularTerm`) —
added on top of the converged radiance, not multiplied by the receiver's
reflectance. -/
theorem computeSpecularity_spec (sq : ℚ → ℚ) (g : Geom) (pos : Vec3)
    (qs : List Quad) (vs : List Vec3) (i : Nat) (hi : i < qs.length) :
    (¬(qs.getD i defQuad).isSpecular = true →
      ((computeSpecularity sq g pos qs vs).getD i defQuad).screenColour =
        (qs.getD i defQuad).screenColour) ∧
    ((qs.getD i defQuad).isSpecular = true →
      ((computeSpecularity sq g pos qs vs).getD i defQuad).screenColour =
        addC (qs.getD i defQuad).screenColour
          (∑ j ∈ ((Finset.range qs.length).erase i).filter
              (fun j => (qs.getD j defQuad).isEmitter = true),
            specularTerm sq g pos qs vs i j)) := by
  constructor
  · intro hs
    rw [computeSpecularity_getD sq g pos qs vs i hi]
    have hs' : (qs.getD i defQuad).isSpecular = false := by
      cases h : (qs.getD i defQuad).isSpecular
      · rfl
      · exact absurd h hs
    dsimp only
    rw [if_pos hs']
  · intro hs
    rw [computeSpecularity_getD sq g pos qs vs i hi]
    have hs' : ¬ (qs.getD i defQuad).isSpecular = false := by rw [hs]; decide
    dsimp only
    rw [if_neg hs']

theorem computeSpecularity_spec_witness :
    0 < [defQuad].length ∧
      (¬([defQuad].getD 0 defQuad).isSpecular = true →
        ((computeSpecularity (fun _ => 0) ⟨fun _ _ => ⟨.fin 0, .fin 0, .fin 0⟩,
            fun _ _ => ⟨.fin 0, .fin 0, .fin 0⟩, fun _ _ => .fin 0⟩
            ⟨.fin 0, .fin 0, .fin 0⟩ [defQuad] []).getD 0 defQuad).screenColour =
          ([defQuad].getD 0 defQuad).screenColour) ∧
      (([defQuad].getD 0 defQuad).isSpecular = true →
        ((computeSpecularity (fun _ => 0) ⟨fun _ _ => ⟨.fin 0, .fin 0, .fin 0⟩,
            fun _ _ => ⟨.fin 0, .fin 0, .fin 0⟩, fun _ _ => .fin 0⟩
            ⟨.fin 0, .fin 0, .fin 0⟩ [defQuad] []).getD 0 defQuad).screenColour =
          addC ([defQuad].getD 0 defQuad).screenColour
            (∑ j ∈ ((Finset.range [defQuad].length).erase 0).filter
                (fun j => ([defQuad].getD j defQuad).isEmitter = true),
              specularTerm (fun _ => 0) ⟨fun _ _ => ⟨.fin 0, .fin 0, .fin 0⟩,
                fun _ _ => ⟨.fin 0, .fin 0, .fin 0⟩, fun _ _ => .fin 0⟩
                ⟨.fin 0, .fin 0, .fin 0⟩ [defQuad] [] 0 j)) :=
  ⟨by decide,
    computeSpecularity_spec (fun _ => 0) ⟨fun _ _ => ⟨.fin 0, .fin 0, .fin 0⟩,
      fun _ _ => ⟨.fin 0, .fin 0, .fin 0⟩, fun _ _ => .fin 0⟩
      ⟨.fin 0, .fin 0, .fin 0⟩ [defQuad] [] 0 (by decide)⟩

theorem one_mulFD (x : FD) : mulFD (.fin 1) x = x := by
  cases x <;> simp [mulFD]

theorem addFD_nonneg {x y : FD} (hx : NonnegFD x) (hy : NonnegFD y) :
    NonnegFD (addFD x y) := by
  rcases hx with rfl | ⟨a, ha, rfl⟩ <;> rcases hy with rfl | ⟨b, hb, rfl⟩
  · exact Or.inl rfl
  · exact Or.inl rfl
  · exact Or.inl rfl
  · exact Or.inr ⟨a + b, add_nonneg ha hb, rfl⟩

theorem zero_nonnegFD : NonnegFD (0 : FD) := Or.inr ⟨0, le_refl 0, rfl⟩

theorem geFD_fin_add_nonneg (q : ℚ) {x : FD} (hx : NonnegFD x) :
    geFD (addFD (.fin q) x) (.fin q) = true := by
  rcases hx with rfl | ⟨b, hb, rfl⟩
  · rfl
  · simp only [addFD, geFD, leFD, decide_eq_true_eq]
    linarith

theorem geFD_fin_refl (q : ℚ) : geFD (.fin q) (.fin q) = true := by
  simp [geFD, leFD]

theorem sumFD_nonneg {s : Finset ℕ} {f : ℕ → FD}
    (h : ∀ j ∈ s, NonnegFD (f j)) : NonnegFD (∑ j ∈ s, f j) := by
  induction s using Finset.cons_induction with
  | empty => exact zero_nonnegFD
  | cons a s ha ih =>
    rw [Finset.sum_cons]
    exact addFD_nonneg (h a (Finset.mem_cons_self a s))
      (ih (fun j hj => h j (Finset.mem_cons_of_mem hj)))

theorem sum_channel_r {s : Finset ℕ} (f : ℕ → Colour) :
    (∑ j ∈ s, f j).r = ∑ j ∈ s, (f j).r := by
  induction s using Finset.cons_induction with
  | empty => rfl
  | cons a s ha ih => rw [Finset.sum_cons, Finset.sum_cons, ← ih]; rfl

theorem sum_channel_g {s : Finset ℕ} (f : ℕ → Colour) :
    (∑ j ∈ s, f j).g = ∑ j ∈ s, (f j).g := by
  induction s using Finset.cons_induction with
  | empty => rfl
  | cons a s ha ih => rw [Finset.sum_cons, Finset.sum_cons, ← ih]; rfl

theorem sum_channel_b {s : Finset ℕ} (f : ℕ → Colour) :
    (∑ j ∈ s, f j).b = ∑ j ∈ s, (f j).b := by
  induction s using Finset.cons_induction with
  | empty => rfl
  | cons a s ha ih => rw [Finset.sum_cons, Finset.sum_cons, ← ih]; rfl

theorem stdMaxFD_zero_nonneg {d : FD} (hd : d ≠ .nan) :
    NonnegFD (stdMaxFD d (.fin 0)) := by
  cases d with
  | fin q =>
    by_cases h : q < 0
    · rw [stdMaxFD, if_pos (by simp [ltFD, h])]
      exact Or.inr ⟨0, le_refl 0, rfl⟩
    · rw [stdMaxFD, if_neg (by simp [ltFD, h])]
      exact Or.inr ⟨q, le_of_not_lt h, rfl⟩
  | pinf => exact Or.inl rfl
  | ninf => exact Or.inr ⟨0, le_refl 0, rfl⟩
  | nan => exact absurd rfl hd

theorem powFD_fin (q : ℚ) (n : Nat) : powFD (.fin q) n = .fin (q ^ n) := by
  induction n with
  | zero => simp [powFD]
  | succ n ih =>
    rw [powFD, ih]
    simp only [mulFD, FD.fin.injEq]
    ring

theorem powFD_pinf (n : Nat) : powFD .pinf (n + 1) = .pinf := by
  induction n with
  | zero => simp [powFD, mulFD]
  | succ n ih => rw [powFD, ih]; rfl

theorem mulFD_nonneg_fin_pos {x : FD} (hx : NonnegFD x) {c : ℚ} (hc : 0 < c) :
    NonnegFD (mulFD x (.fin c)) := by
  rcases hx with rfl | ⟨a, ha, rfl⟩
  · exact Or.inl (by simp [mulFD, hc])
  · exact Or.inr ⟨a * c, mul_nonneg ha (le_of_lt hc), rfl⟩

theorem specularTerm_nonneg (sq : ℚ → ℚ) (g : Geom) (pos : Vec3)
    (qs : List Quad) (vs : List Vec3) (i j : Nat)
    (hd : specularDot sq g pos qs vs i j ≠ .nan) :
    NonnegFD (specularTerm sq g pos qs vs i j).r ∧
    NonnegFD (specularTerm sq g pos qs vs i j).g ∧
    NonnegFD (specularTerm sq g pos qs vs i j).b := by
  have hpow : NonnegFD
      (powFD (stdMaxFD (specularDot sq g pos qs vs i j) (.fin 0)) specularPower) := by
    rcases stdMaxFD_zero_nonneg hd with hb | ⟨q, hq, hb⟩
    · rw [hb, show specularPower = 31 + 1 from rfl, powFD_pinf]
      exact Or.inl rfl
    · rw [hb, powFD_fin]
      exact Or.inr ⟨q ^ specularPower, pow_nonneg hq _, rfl⟩
  have hch : NonnegFD (mulFD (mulFD (.fin 1)
      (powFD (stdMaxFD (specularDot sq g pos qs vs i j) (.fin 0)) specularPower))
      (.fin (1 / 50))) := by
    rw [one_mulFD]
    exact mulFD_nonneg_fin_pos hpow (by norm_num)
  exact ⟨hch, hch, hch⟩

/-- C10 fails as stated: with a specular receiver and an emitter at
coincident centroids, the Phong light direction normalizes `0/0` to NaN,
the NaN propagates through the added term, and the resulting channel is
not `≥` its input value (every comparison with NaN is false). -/
theorem specular_can_decrease :
    geFD ((computeSpecularity sqTest cxGeom ⟨.fin 0, .fin 0, .fin (-3)⟩
        cxSpecQuads []).getD 0 defQuad).screenColour.r
      ((cxSpecQuads.getD 0 defQuad).screenColour.r) = false := by
  have hlen : cxSpecQuads.length = 2 := rfl
  have hr2 : List.range 2 = [0, 1] := rfl
  have hpow : powFD .nan specularPower = .nan := rfl
  norm_num [computeSpecularity, cxSpecQuads, specularTerm, specularDot,
    paraCentre, paraCross, cxGeom, sqTest, normV, lenV, dotV, subV, scaleV,
    smulC, addC, mulC, whiteC, zeroC, defQuad, mulFD, addFD, subFD, negFD,
    divFD, sqrtFD, stdMaxFD, ltFD, fmaxFD, geFD, leFD, hlen, hr2, hpow,
    List.getD_cons_zero, List.getD_cons_succ]

/-- C10 (amended): provided every element's input colour channels are
finite and, for every specular receiver `i` and distinct emitter `j`, the
computed Phong dot product is not NaN, the specular pass never decreases
any colour channel of any element: each added contribution is
`max(0, ·)^32 × 0.02 ≥ 0`. -/
theorem computeSpecularity_monotone_amended (sq : ℚ → ℚ) (g : Geom)
    (pos : Vec3) (qs : List Quad) (vs : List Vec3)
    (hfin : ∀ i, i < qs.length →
      ((qs.getD i defQuad).screenColour.r.isFinB &&
       (qs.getD i defQuad).screenColour.g.isFinB &&
       (qs.getD i defQuad).screenColour.b.isFinB) = true)
    (hdot : ∀ i, i < qs.length → ∀ j, j < qs.length → j ≠ i →
      (qs.getD i defQuad).isSpecular = true →
      (qs.getD j defQuad).isEmitter = true →
      specularDot sq g pos qs vs i j ≠ .nan)
    (i : Nat) (hi : i < qs.length) :
    geFD ((computeSpecularity sq g pos qs vs).getD i defQuad).screenColour.r
      (qs.getD i defQuad).screenColour.r = true ∧
    geFD ((computeSpecularity sq g pos qs vs).getD i defQuad).screenColour.g
      (qs.getD i defQuad).screenColour.g = true ∧
    geFD ((computeSpecularity sq g pos qs vs).getD i defQuad).screenColour.b
      (qs.getD i defQuad).screenColour.b = true := by
  have hf := hfin i hi
  simp only [Bool.and_eq_true] at hf
  obtain ⟨⟨hfr, hfg⟩, hfb⟩ := hf
  obtain ⟨qr, hqr⟩ : ∃ q, (qs.getD i defQuad).screenColour.r = .fin q := by
    cases h : (qs.getD i defQuad).screenColour.r <;>
      first
        | exact ⟨_, rfl⟩
        | (rw [h] at hfr; exact absurd hfr (by decide))
  obtain ⟨qg, hqg⟩ : ∃ q, (qs.getD i defQuad).screenColour.g = .fin q := by
    cases h : (qs.getD i defQuad).screenColour.g <;>
      first
        | exact ⟨_, rfl⟩
        | (rw [h] at hfg; exact absurd hfg (by decide))
  obtain ⟨qb, hqb⟩ : ∃ q, (qs.getD i defQuad).screenColour.b = .fin q := by
    cases h : (qs.getD i defQuad).screenColour.b <;>
      first
        | exact ⟨_, rfl⟩
        | (rw [h] at hfb; exact absurd hfb (by decide))
  rw [computeSpecularity_getD sq g pos qs vs i hi]
  dsimp only
  by_cases hs : (qs.getD i defQuad).isSpecular = false
  · rw [if_pos hs, hqr, hqg, hqb]
    exact ⟨geFD_fin_refl qr, geFD_fin_refl qg, geFD_fin_refl qb⟩
  · rw [if_neg hs]
    have hs' : (qs.getD i defQuad).isSpecular = true := by
      cases h : (qs.getD i defQuad).isSpecular
      · exact absurd h hs
      · rfl
    have hterm : ∀ j ∈ ((Finset.range qs.length).erase i).filter
        (fun j => (qs.getD j defQuad).isEmitter = true),
        NonnegFD (specularTerm sq g pos qs vs i j).r ∧
        NonnegFD (specularTerm sq g pos qs vs i j).g ∧
        NonnegFD (specularTerm sq g pos qs vs i j).b := by
      intro j hj
      rw [Finset.mem_filter] at hj
      obtain ⟨hje, hjem⟩ := hj
      rw [Finset.mem_erase] at hje
      exact specularTerm_nonneg sq g pos qs vs i j
        (hdot i hi j (Finset.mem_range.mp hje.2) hje.1 hs' hjem)
    refine ⟨?_, ?_, ?_⟩
    · show geFD (addFD (qs.getD i defQuad).screenColour.r _) _ = true
      rw [sum_channel_r, hqr]
      exact geFD_fin_add_nonneg qr (sumFD_nonneg (fun j hj => (hterm j hj).1))
    · show geFD (addFD (qs.getD i defQuad).screenColour.g _) _ = true
      rw [sum_channel_g, hqg]
      exact geFD_fin_add_nonneg qg (sumFD_nonneg (fun j hj => (hterm j hj).2.1))
    · show geFD (addFD (qs.getD i defQuad).screenColour.b _) _ = true
      rw [sum_channel_b, hqb]
      exact geFD_fin_add_nonneg qb (sumFD_nonneg (fun j hj => (hterm j hj).2.2))

theorem computeSpecularity_monotone_amended_witness :
    (∀ i, i < [defQuad].length →
      (([defQuad].getD i defQuad).screenColour.r.isFinB &&
       ([defQuad].getD i defQuad).screenColour.g.isFinB &&
       ([defQuad].getD i defQuad).screenColour.b.isFinB) = true) ∧
    (∀ i, i < [defQuad].length → ∀ j, j < [defQuad].length → j ≠ i →
      ([defQuad].getD i defQuad).isSpecular = true →
      ([defQuad].getD j defQuad).isEmitter = true →
      specularDot sqTest cxGeom ⟨.fin 0, .fin 0, .fin (-3)⟩ [defQuad] [] i j ≠ .nan) ∧
    geFD ((computeSpecularity sqTest cxGeom ⟨.fin 0, .fin 0, .fin (-3)⟩
        [defQuad] []).getD 0 defQuad).screenColour.r
      ([defQuad].getD 0 defQuad).screenColour.r = true ∧
    geFD ((computeSpecularity sqTest cxGeom ⟨.fin 0, .fin 0, .fin (-3)⟩
        [defQuad] []).getD 0 defQuad).screenColour.g
      ([defQuad].getD 0 defQuad).screenColour.g = true ∧
    geFD ((computeSpecularity sqTest cxGeom ⟨.fin 0, .fin 0, .fin (-3)⟩
        [defQuad] []).getD 0 defQuad).screenColour.b
      ([defQuad].getD 0 defQuad).screenColour.b = true :=
  ⟨by decide,
    by
      intro i hi j hj hne hs hem
      have hl : [defQuad].length = 1 := rfl
      rw [hl] at hi
      have hi0 : i = 0 := by omega
      subst hi0
      exact absurd hs (by decide),
    computeSpecularity_monotone_amended sqTest cxGeom ⟨.fin 0, .fin 0, .fin (-3)⟩
      [defQuad] [] (by decide)
      (by
        intro i hi j hj hne hs hem
        have hl : [defQuad].length = 1 := rfl
        rw [hl] at hi
        have hi0 : i = 0 := by omega
        subst hi0
        exact absurd hs (by decide))
      0 (by decide)⟩

theorem ltFD_self (x : FD) : ltFD x x = false := by
  cases x <;> simp [ltFD]

theorem mulFD_one_right (x : FD) : mulFD x (.fin 1) = x := by
  cases x <;> simp [mulFD]

theorem smulC_one (c : Colour) : smulC c (.fin 1) = c := by
  simp [smulC, mulFD_one_right]

theorem stdMaxFD_nonneg_left {m : FD} (hm : NonnegFD m) (x : FD) :
    NonnegFD (stdMaxFD m x) := by
  unfold stdMaxFD
  cases hb : ltFD m x
  · rw [if_neg (by simp [hb])]; exact hm
  · rw [if_pos (by simp [hb])]
    rcases hm with rfl | ⟨q, hq, rfl⟩
    · simp [ltFD] at hb
    · cases x with
      | fin c =>
        simp only [ltFD, decide_eq_true_eq] at hb
        exact Or.inr ⟨c, le_of_lt (lt_of_le_of_lt hq hb), rfl⟩
      | pinf => exact Or.inl rfl
      | ninf => simp [ltFD] at hb
      | nan => simp [ltFD] at hb

theorem foldl_stdMax_nonneg :
    ∀ (l : List FD) {m : FD}, NonnegFD m → NonnegFD (List.foldl stdMaxFD m l) := by
  intro l
  induction l with
  | nil => intro m hm; exact hm
  | cons z t ih => intro m hm; exact ih (stdMaxFD_nonneg_left hm z)

theorem stdMaxFD_not_lt_right (m y : FD) : ltFD (stdMaxFD m y) y = false := by
  unfold stdMaxFD
  cases hb : ltFD m y
  · rw [if_neg (by simp [hb])]; exact hb
  · rw [if_pos (by simp [hb])]; exact ltFD_self y

theorem foldl_stdMax_keeps_not_lt {x : FD} :
    ∀ (l : List FD) (m : FD), NonnegFD m → ltFD m x = false →
      ltFD (List.foldl stdMaxFD m l) x = false := by
  intro l
  induction l with
  | nil => intro m _ h; exact h
  | cons z t ih =>
    intro m hm h
    rw [List.foldl_cons]
    refine ih (stdMaxFD m z) (stdMaxFD_nonneg_left hm z) ?_
    unfold stdMaxFD
    cases hb : ltFD m z
    · rw [if_neg (by simp [hb])]; exact h
    · rw [if_pos (by simp [hb])]
      rcases hm with rfl | ⟨q, hq, rfl⟩
      · simp [ltFD] at hb
      · cases z with
        | fin c =>
          cases x with
          | fin d =>
            simp only [ltFD, decide_eq_true_eq] at hb
            simp only [ltFD, decide_eq_false_iff_not] at h ⊢
            intro hcd
            exact h (lt_trans hb hcd)
          | pinf => simp [ltFD] at h
          | ninf => simp [ltFD]
          | nan => simp [ltFD]
        | pinf => simp [ltFD]
        | ninf => simp [ltFD] at hb
        | nan => simp [ltFD] at hb

theorem foldl_stdMax_ub {x : FD} :
    ∀ (l : List FD) (m : FD), NonnegFD m → x ∈ l →
      ltFD (List.foldl stdMaxFD m l) x = false := by
  intro l
  induction l with
  | nil => intro m _ h; cases h
  | cons z t ih =>
    intro m hm hx
    rw [List.foldl_cons]
    rcases List.mem_cons.mp hx with rfl | hxt
    · exact foldl_stdMax_keeps_not_lt t (stdMaxFD m x)
        (stdMaxFD_nonneg_left hm x) (stdMaxFD_not_lt_right m x)
    · exact ih (stdMaxFD m z) (stdMaxFD_nonneg_left hm z) hxt

theorem foldl_stdMax_const :
    ∀ (l : List FD) (m : FD), (∀ x ∈ l, ltFD m x = false) →
      List.foldl stdMaxFD m l = m := by
  intro l
  induction l with
  | nil => intro m _; rfl
  | cons z t ih =>
    intro m h
    rw [List.foldl_cons]
    have hz : stdMaxFD m z = m := by
      unfold stdMaxFD
      rw [if_neg (by simp [h z (List.mem_cons_self z t)])]
    rw [hz]
    exact ih m (fun x hx => h x (List.mem_cons_of_mem _ hx))

theorem ltFD_mul_fin_pos {s : ℚ} (hs : 0 < s) (a b : FD) :
    ltFD (mulFD a (.fin s)) (mulFD b (.fin s)) = ltFD a b := by
  cases a <;> cases b <;>
    simp [mulFD, ltFD, hs, asymm hs, mul_lt_mul_right hs]

theorem stdMaxFD_mul_fin_pos {s : ℚ} (hs : 0 < s) (a b : FD) :
    stdMaxFD (mulFD a (.fin s)) (mulFD b (.fin s)) = mulFD (stdMaxFD a b) (.fin s) := by
  unfold stdMaxFD
  rw [ltFD_mul_fin_pos hs]
  by_cases hb : ltFD a b = true
  · rw [if_pos hb, if_pos hb]
  · rw [if_neg hb, if_neg hb]

theorem foldl_stdMax_map_mul {s : ℚ} (hs : 0 < s) :
    ∀ (l : List FD) (m : FD),
      List.foldl stdMaxFD (mulFD m (.fin s)) (l.map (fun x => mulFD x (.fin s))) =
        mulFD (List.foldl stdMaxFD m l) (.fin s) := by
  intro l
  induction l with
  | nil => intro m; rfl
  | cons z t ih =>
    intro m
    rw [List.map_cons, List.foldl_cons, List.foldl_cons, stdMaxFD_mul_fin_pos hs]
    exact ih (stdMaxFD m z)

theorem visMax_foldl_channels (g : Geom) (camPos : Vec3) (vs : List Vec3) :
    ∀ (qs : List Quad) (m : FD),
      qs.foldl (fun m q =>
        if !q.isEmitter && facesUs g camPos q vs then
          stdMaxFD (stdMaxFD (stdMaxFD m q.screenColour.r) q.screenColour.g)
            q.screenColour.b
        else m) m = List.foldl stdMaxFD m (visChannels g camPos qs vs) := by
  intro qs
  induction qs with
  | nil => intro m; rfl
  | cons q t ih =>
    intro m
    rw [List.foldl_cons]
    have hch : visChannels g camPos (q :: t) vs =
        (if !q.isEmitter && facesUs g camPos q vs then
          [q.screenColour.r, q.screenColour.g, q.screenColour.b]
        else []) ++ visChannels g camPos t vs := rfl
    rw [hch, List.foldl_append]
    by_cases hc : (!q.isEmitter && facesUs g camPos q vs) = true
    · rw [if_pos hc, if_pos hc]
      exact ih _
    · rw [if_neg hc, if_neg hc]
      exact ih m

theorem visMax_eq_foldl (g : Geom) (camPos : Vec3) (qs : List Quad)
    (vs : List Vec3) :
    visMax g camPos qs vs =
      List.foldl stdMaxFD (.fin 0) (visChannels g camPos qs vs) :=
  visMax_foldl_channels g camPos vs qs (.fin 0)

theorem visMax_nonneg (g : Geom) (camPos : Vec3) (qs : List Quad)
    (vs : List Vec3) : NonnegFD (visMax g camPos qs vs) := by
  rw [visMax_eq_foldl]
  exact foldl_stdMax_nonneg _ (Or.inr ⟨0, le_refl 0, rfl⟩)

theorem visChannels_cons (g : Geom) (camPos : Vec3) (vs : List Vec3)
    (q : Quad) (t : List Quad) :
    visChannels g camPos (q :: t) vs =
      (if !q.isEmitter && facesUs g camPos q vs then
        [q.screenColour.r, q.screenColour.g, q.screenColour.b]
      else []) ++ visChannels g camPos t vs := rfl

theorem visChannels_map_scale (g : Geom) (camPos : Vec3) (vs : List Vec3)
    (sc : FD) :
    ∀ qs : List Quad,
      visChannels g camPos
        (qs.map (fun q => if q.isEmitter then q
          else { q with screenColour := smulC q.screenColour sc })) vs =
        (visChannels g camPos qs vs).map (fun x => mulFD x sc) := by
  intro qs
  induction qs with
  | nil => rfl
  | cons q t ih =>
    rw [List.map_cons, visChannels_cons, visChannels_cons, List.map_append, ← ih]
    congr 1
    by_cases he : q.isEmitter
    · simp [he]
    · rw [if_neg he]
      have hsel : (!({ q with screenColour := smulC q.screenColour sc }).isEmitter &&
          facesUs g camPos { q with screenColour := smulC q.screenColour sc } vs) =
          (!q.isEmitter && facesUs g camPos q vs) := rfl
      rw [hsel]
      by_cases hc : (!q.isEmitter && facesUs g camPos q vs) = true
      · rw [if_pos hc, if_pos hc]
        rfl
      · rw [if_neg hc, if_neg hc]
        rfl

theorem normaliseBrightness_map (g : Geom) (camPos : Vec3) (qs : List Quad)
    (vs : List Vec3) :
    normaliseBrightness g camPos qs vs =
      qs.map (fun q => if q.isEmitter then q
        else { q with
               screenColour := smulC q.screenColour (normScale g camPos qs vs) }) :=
  rfl

theorem normalise_id_of_not_lt (g : Geom) (camPos : Vec3) (qs : List Quad)
    (vs : List Vec3) (h : ltFD (visMax g camPos qs vs) (.fin 1) = false) :
    normaliseBrightness g camPos qs vs = qs := by
  have hsc : normScale g camPos qs vs = .fin 1 := by
    unfold normScale
    rw [if_neg (by simp [h])]
  rw [normaliseBrightness_map, hsc]
  have hq : ∀ q : Quad, (if q.isEmitter then q
      else { q with screenColour := smulC q.screenColour (.fin 1) }) = q := by
    intro q
    rw [smulC_one]
    by_cases he : q.isEmitter
    · rw [if_pos he]
    · rw [if_neg he]
  calc qs.map (fun q => if q.isEmitter then q
        else { q with screenColour := smulC q.screenColour (.fin 1) })
      = qs.map (fun q => q) := by
        rw [List.map_eq_map_iff]
        intro q _
        exact hq q
    _ = qs := List.map_id' qs

theorem normScale_of_fin_lt_one (g : Geom) (camPos : Vec3) (qs : List Quad)
    (vs : List Vec3) (m : ℚ) (hmx : visMax g camPos qs vs = .fin m)
    (h0 : m ≠ 0) (h1 : m < 1) :
    normScale g camPos qs vs = .fin (1 / m) := by
  unfold normScale
  rw [hmx, if_pos (by simp [ltFD, h1])]
  simp [divFD, h0]

/-- Scaling a scene whose visible maximum is `m ∈ (0, 1)` makes the visible
maximum exactly 1. -/
theorem visMax_normalise_eq_one (g : Geom) (camPos : Vec3) (qs : List Quad)
    (vs : List Vec3) (m : ℚ) (hmx : visMax g camPos qs vs = .fin m)
    (h0 : 0 < m) (h1 : m < 1) :
    visMax g camPos (normaliseBrightness g camPos qs vs) vs = .fin 1 := by
  have hsc := normScale_of_fin_lt_one g camPos qs vs m hmx (ne_of_gt h0) h1
  rw [visMax_eq_foldl, normaliseBrightness_map, hsc, visChannels_map_scale]
  have h0' : (0:ℚ) < 1 / m := by positivity
  have hinit : (.fin 0 : FD) = mulFD (.fin 0) (.fin (1 / m)) := by
    simp [mulFD]
  rw [hinit, foldl_stdMax_map_mul h0', ← visMax_eq_foldl, hmx]
  simp only [mulFD, FD.fin.injEq]
  field_simp

theorem mulFD_pinf_idem (x : FD) :
    mulFD (mulFD x .pinf) .pinf = mulFD x .pinf := by
  cases x with
  | fin q =>
    rcases lt_trichotomy 0 q with h | h | h
    · simp [mulFD, h, asymm h]
    · simp [mulFD, ← h]
    · simp [mulFD, h, asymm h, not_lt_of_lt h]
  | pinf => rfl
  | ninf => rfl
  | nan => rfl

theorem smulC_pinf_idem (c : Colour) :
    smulC (smulC c .pinf) .pinf = smulC c .pinf := by
  simp [smulC, mulFD_pinf_idem]

theorem ltFD_zero_mul_pinf {x : FD} (h : ltFD (.fin 0) x = false) :
    ltFD (.fin 0) (mulFD x .pinf) = false := by
  cases x with
  | fin q =>
    simp only [ltFD, decide_eq_false_iff_not, not_lt] at h
    rcases lt_or_eq_of_le h with h' | h'
    · simp [mulFD, h', asymm h', ltFD]
    · simp [mulFD, ← h', ltFD]
  | pinf => simp [ltFD] at h
  | ninf => simp [mulFD, ltFD]
  | nan => simp [mulFD, ltFD]

/-- C6: the brightness normalizer is idempotent: a second application with
no intervening solve returns the first application's output unchanged, for
every scene, geometry query and camera position — including the degenerate
scene whose visible maximum is zero (both passes then scale by `+∞` and the
resulting special values are fixed points of that scaling). -/
theorem normalise_idempotent (g : Geom) (camPos : Vec3) (qs : List Quad)
    (vs : List Vec3) :
    normaliseBrightness g camPos (normaliseBrightness g camPos qs vs) vs =
      normaliseBrightness g camPos qs vs := by
  rcases visMax_nonneg g camPos qs vs with hp | ⟨m, hm0, hfin⟩
  · have hid : normaliseBrightness g camPos qs vs = qs :=
      normalise_id_of_not_lt g camPos qs vs (by rw [hp]; rfl)
    rw [hid]
    exact hid
  · by_cases h1 : m < 1
    · by_cases h0 : 0 < m
      · have hone := visMax_normalise_eq_one g camPos qs vs m hfin h0 h1
        exact normalise_id_of_not_lt g camPos _ vs
          (by rw [hone]; simp [ltFD])
      · have hm : m = 0 := le_antisymm (not_lt.mp h0) hm0
        subst hm
        have hscale1 : normScale g camPos qs vs = .pinf := by
          unfold normScale
          rw [hfin, if_pos (by norm_num [ltFD])]
          norm_num [divFD]
        have hfq : normaliseBrightness g camPos qs vs =
            qs.map (fun q => if q.isEmitter then q
              else { q with screenColour := smulC q.screenColour .pinf }) := by
          rw [normaliseBrightness_map, hscale1]
        have hchan : ∀ x ∈ visChannels g camPos qs vs,
            ltFD (.fin 0) x = false := by
          intro x hx
          have hub := foldl_stdMax_ub (visChannels g camPos qs vs) (.fin 0)
            (Or.inr ⟨0, le_refl 0, rfl⟩) hx
          rw [← visMax_eq_foldl, hfin] at hub
          exact hub
        have hvm2 : visMax g camPos (normaliseBrightness g camPos qs vs) vs =
            .fin 0 := by
          rw [visMax_eq_foldl, hfq, visChannels_map_scale]
          refine foldl_stdMax_const _ _ (fun y hy => ?_)
          obtain ⟨x, hx, rfl⟩ := List.mem_map.mp hy
          exact ltFD_zero_mul_pinf (hchan x hx)
        have hscale2 : normScale g camPos
            (normaliseBrightness g camPos qs vs) vs = .pinf := by
          unfold normScale
          rw [hvm2, if_pos (by norm_num [ltFD])]
          norm_num [divFD]
        rw [normaliseBrightness_map g camPos (normaliseBrightness g camPos qs vs) vs,
          hscale2, hfq, List.map_map, List.map_eq_map_iff]
        intro q _
        by_cases he : q.isEmitter
        · simp [Function.comp, he]
        · simp [Function.comp, he, smulC_pinf_idem]
    · have hlt : ltFD (visMax g camPos qs vs) (.fin 1) = false := by
        rw [hfin]
        simp [ltFD, not_lt.mp h1]
      have hid := normalise_id_of_not_lt g camPos qs vs hlt
      rw [hid]
      exact hid

/-- C5 (amended): if the visible maximum exceeds the target 1.0 the
normalizer leaves every element unchanged; if it is a finite value strictly
between 0 and 1 the normalizer multiplies every non-emitter's colour by the
single factor `1/max` and the visible maximum becomes exactly 1.0.  (As
stated the claim fails when the visible maximum is 0: the scale is then
`1.0/0.0 = +∞` and the maximum never reaches 1 — see the counterexample.) -/
theorem normalise_amended (g : Geom) (camPos : Vec3) (qs : List Quad)
    (vs : List Vec3) :
    (gtFD (visMax g camPos qs vs) (.fin 1) = true →
      normaliseBrightness g camPos qs vs = qs) ∧
    (∀ m : ℚ, visMax g camPos qs vs = .fin m → 0 < m → m < 1 →
      normaliseBrightness g camPos qs vs =
        qs.map (fun q => if q.isEmitter then q
          else { q with screenColour := smulC q.screenColour (.fin (1 / m)) }) ∧
      visMax g camPos (normaliseBrightness g camPos qs vs) vs = .fin 1) := by
  constructor
  · intro hgt
    refine normalise_id_of_not_lt g camPos qs vs ?_
    rcases visMax_nonneg g camPos qs vs with hp | ⟨m, _, hfin⟩
    · rw [hp]; rfl
    · rw [hfin]
      rw [hfin] at hgt
      simp only [gtFD, ltFD, decide_eq_true_eq] at hgt
      simp [ltFD, asymm hgt]
  · intro m hmx h0 h1
    refine ⟨?_, visMax_normalise_eq_one g camPos qs vs m hmx h0 h1⟩
    rw [normaliseBrightness_map,
      normScale_of_fin_lt_one g camPos qs vs m hmx (ne_of_gt h0) h1]

/-- C5 fails as stated when the visible maximum is zero: for a single
front-facing non-emitter black element the maximum (0) is below the target,
the scale becomes `1.0/0.0 = +∞`, the element's channels become
`0 × ∞ = NaN`, and the visible maximum after normalization is still 0 —
not exactly 1.0 as the claim requires. -/
theorem normalise_zero_max_not_one :
    visMax cxGeom ⟨.fin (-1), .fin 0, .fin 0⟩ [defQuad] [] = .fin 0 ∧
    visMax cxGeom ⟨.fin (-1), .fin 0, .fin 0⟩
      (normaliseBrightness cxGeom ⟨.fin (-1), .fin 0, .fin 0⟩ [defQuad] []) [] =
      .fin 0 ∧
    ((normaliseBrightness cxGeom ⟨.fin (-1), .fin 0, .fin 0⟩
        [defQuad] []).getD 0 defQuad).screenColour.r = .nan := by
  refine ⟨?_, ?_, ?_⟩ <;>
    norm_num [normaliseBrightness, normScale, visMax, facesUs, paraCentre,
      paraCross, cxGeom, defQuad, smulC, zeroC, dotV, subV, mulFD, addFD,
      subFD, negFD, divFD, gtFD, ltFD, stdMaxFD, List.getD_cons_zero]

theorem normalise_amended_witness :
    visMax cxGeom ⟨.fin (-1), .fin 0, .fin 0⟩ [cxHalfQuad] [] = .fin (1 / 2) ∧
    ((0:ℚ) < 1 / 2 ∧ (1:ℚ) / 2 < 1) ∧
    (normaliseBrightness cxGeom ⟨.fin (-1), .fin 0, .fin 0⟩ [cxHalfQuad] [] =
      [cxHalfQuad].map (fun q => if q.isEmitter then q
        else { q with screenColour := smulC q.screenColour (.fin (1 / (1 / 2))) }) ∧
     visMax cxGeom ⟨.fin (-1), .fin 0, .fin 0⟩
       (normaliseBrightness cxGeom ⟨.fin (-1), .fin 0, .fin 0⟩ [cxHalfQuad] []) [] =
       .fin 1) := by
  have hmx : visMax cxGeom ⟨.fin (-1), .fin 0, .fin 0⟩ [cxHalfQuad] [] =
      .fin (1 / 2) := by
    norm_num [visMax, facesUs, paraCentre, paraCross, cxGeom, cxHalfQuad,
      defQuad, dotV, subV, mulFD, addFD, subFD, negFD, gtFD, ltFD, stdMaxFD]
  exact ⟨hmx, ⟨by norm_num, by norm_num⟩,
    (normalise_amended cxGeom ⟨.fin (-1), .fin 0, .fin 0⟩ [cxHalfQuad] []).2
      (1 / 2) hmx (by norm_num) (by norm_num)⟩

/-- Structure of a `solveLoop` run started after `m` completed iterations:
the result is the `m + count`-times-iterated scene; the count is positive
(when fuel remains) and bounded by the fuel; every loop check before the
last one exceeded the convergence target; and if the loop stopped on its
own (count < fuel) the last check did not exceed the target. -/
theorem solveLoop_run (grey : Colour → FD) (g : Geom) (vs : List Vec3)
    (transfers : List FD) (qs : List Quad) :
    ∀ fuel m : Nat,
      (solveLoop grey g vs transfers fuel (iterN transfers qs m)
          (lightAt grey g transfers qs vs m)).1 =
        iterN transfers qs (m + (solveLoop grey g vs transfers fuel
          (iterN transfers qs m) (lightAt grey g transfers qs vs m)).2) ∧
      (solveLoop grey g vs transfers fuel (iterN transfers qs m)
          (lightAt grey g transfers qs vs m)).2 ≤ fuel ∧
      (0 < fuel → 0 < (solveLoop grey g vs transfers fuel (iterN transfers qs m)
          (lightAt grey g transfers qs vs m)).2) ∧
      (∀ s : Nat, s + 1 < (solveLoop grey g vs transfers fuel (iterN transfers qs m)
          (lightAt grey g transfers qs vs m)).2 →
        gtFD (relStep grey g transfers qs vs (m + s)) convergenceTarget = true) ∧
      ((solveLoop grey g vs transfers fuel (iterN transfers qs m)
          (lightAt grey g transfers qs vs m)).2 < fuel →
        gtFD (relStep grey g transfers qs vs
          (m + (solveLoop grey g vs transfers fuel (iterN transfers qs m)
            (lightAt grey g transfers qs vs m)).2 - 1)) convergenceTarget = false) := by
  intro fuel
  induction fuel with
  | zero =>
    intro m
    have h0 : (solveLoop grey g vs transfers 0 (iterN transfers qs m)
        (lightAt grey g transfers qs vs m)).2 = 0 := rfl
    refine ⟨rfl, le_refl 0, fun h => absurd h (lt_irrefl 0), ?_, ?_⟩
    · intro s hs
      omega
    · intro h
      omega
  | succ fuel ih =>
    intro m
    have hunf : solveLoop grey g vs transfers (fuel + 1) (iterN transfers qs m)
        (lightAt grey g transfers qs vs m) =
        (if gtFD (relStep grey g transfers qs vs m) convergenceTarget = true then
          ((solveLoop grey g vs transfers fuel (iterN transfers qs (m + 1))
            (lightAt grey g transfers qs vs (m + 1))).1,
           (solveLoop grey g vs transfers fuel (iterN transfers qs (m + 1))
            (lightAt grey g transfers qs vs (m + 1))).2 + 1)
        else (iterN transfers qs (m + 1), 1)) := rfl
    by_cases hc : gtFD (relStep grey g transfers qs vs m) convergenceTarget = true
    · rw [hunf, if_pos hc]
      obtain ⟨ihA, ihB, ihP, ihC, ihD⟩ := ih (m + 1)
      dsimp only
      refine ⟨?_, Nat.succ_le_succ ihB, fun _ => Nat.succ_pos _, ?_, ?_⟩
      · rw [ihA]
        congr 1
        omega
      · intro s hs
        cases s with
        | zero =>
          rw [Nat.add_zero]
          exact hc
        | succ t =>
          have ht : t + 1 < (solveLoop grey g vs transfers fuel
              (iterN transfers qs (m + 1))
              (lightAt grey g transfers qs vs (m + 1))).2 := by omega
          have hstep := ihC t ht
          rw [show m + (t + 1) = m + 1 + t by omega]
          exact hstep
      · intro hlt
        have hlt' : (solveLoop grey g vs transfers fuel
            (iterN transfers qs (m + 1))
            (lightAt grey g transfers qs vs (m + 1))).2 < fuel := by omega
        have hstep := ihD hlt'
        rw [show m + ((solveLoop grey g vs transfers fuel
            (iterN transfers qs (m + 1))
            (lightAt grey g transfers qs vs (m + 1))).2 + 1) - 1 =
          m + 1 + (solveLoop grey g vs transfers fuel
            (iterN transfers qs (m + 1))
            (lightAt grey g transfers qs vs (m + 1))).2 - 1 by omega]
        exact hstep
    · rw [hunf, if_neg hc]
      dsimp only
      refine ⟨rfl, by omega, fun _ => Nat.one_pos, ?_, ?_⟩
      · intro s hs
        omega
      · intro _
        rw [show m + 1 - 1 = m by omega]
        cases hgt : gtFD (relStep grey g transfers qs vs m) convergenceTarget
        · rfl
        · exact absurd hgt hc

/-- The first loop check always exceeds the target when the first
iteration's total light is neither zero nor NaN: the previous total is
zero, so the relative change is `|0/L1 - 1| = 1 > 0.001`. -/
theorem relStep_zero_gt (grey : Colour → FD) (g : Geom) (transfers : List FD)
    (qs : List Quad) (vs : List Vec3)
    (hL0 : lightAt grey g transfers qs vs 1 ≠ .fin 0)
    (hLn : lightAt grey g transfers qs vs 1 ≠ .nan) :
    gtFD (relStep grey g transfers qs vs 0) convergenceTarget = true := by
  have h0 : relStep grey g transfers qs vs 0 =
      fabsFD (subFD (divFD (.fin 0) (lightAt grey g transfers qs vs 1)) (.fin 1)) := rfl
  rw [h0]
  cases hL : lightAt grey g transfers qs vs 1 with
  | fin a =>
    have ha : a ≠ 0 := by
      intro h
      exact hL0 (by rw [hL, h])
    norm_num [divFD, ha, subFD, negFD, addFD, fabsFD, gtFD, ltFD,
      convergenceTarget]
  | pinf =>
    norm_num [divFD, subFD, negFD, addFD, fabsFD, gtFD, ltFD, convergenceTarget]
  | ninf =>
    norm_num [divFD, subFD, negFD, addFD, fabsFD, gtFD, ltFD, convergenceTarget]
  | nan => exact absurd hL hLn

/-- C3 (amended): started with previous total zero, the loop executes at
least two iterations provided the first iteration's total light is neither
zero nor NaN; it returns the count-times-iterated scene; every check before
the last exceeded the 0.001 target, and when the loop stops on its own the
final check did not exceed it (the relative change is `≤ 0.001`, or NaN
when a total is zero).  As literally stated the claim fails: when the first
iteration's total light is zero the relative change is `|0/0 - 1| = NaN`,
`NaN > 0.001` is false, and the loop stops after a single iteration. -/
theorem convergence_loop_amended (grey : Colour → FD) (g : Geom)
    (vs : List Vec3) (transfers : List FD) (qs : List Quad) (fuel : Nat)
    (hL0 : lightAt grey g transfers qs vs 1 ≠ .fin 0)
    (hLn : lightAt grey g transfers qs vs 1 ≠ .nan)
    (hf : 2 ≤ fuel) :
    2 ≤ (solveLoop grey g vs transfers fuel qs (.fin 0)).2 ∧
    (solveLoop grey g vs transfers fuel qs (.fin 0)).1 =
      iterN transfers qs (solveLoop grey g vs transfers fuel qs (.fin 0)).2 ∧
    (∀ s : Nat, s + 1 < (solveLoop grey g vs transfers fuel qs (.fin 0)).2 →
      gtFD (relStep grey g transfers qs vs s) convergenceTarget = true) ∧
    ((solveLoop grey g vs transfers fuel qs (.fin 0)).2 < fuel →
      gtFD (relStep grey g transfers qs vs
        ((solveLoop grey g vs transfers fuel qs (.fin 0)).2 - 1))
        convergenceTarget = false) := by
  have H := solveLoop_run grey g vs transfers qs fuel 0
  rw [show iterN transfers qs 0 = qs from rfl,
    show lightAt grey g transfers qs vs 0 = .fin 0 from rfl] at H
  obtain ⟨hA, hB, hP, hC, hD⟩ := H
  have h2 : 2 ≤ (solveLoop grey g vs transfers fuel qs (.fin 0)).2 := by
    by_contra hcon
    have hpos : 0 < (solveLoop grey g vs transfers fuel qs (.fin 0)).2 :=
      hP (by omega)
    have hone : (solveLoop grey g vs transfers fuel qs (.fin 0)).2 = 1 := by
      omega
    have hlast := hD (by omega)
    rw [hone] at hlast
    have hfirst := relStep_zero_gt grey g transfers qs vs hL0 hLn
    rw [hfirst] at hlast
    exact absurd hlast (by decide)
  refine ⟨h2, ?_, ?_, ?_⟩
  · rw [hA]
    congr 1
    omega
  · intro s hs
    have := hC s hs
    rw [show (0:Nat) + s = s by omega] at this
    exact this
  · intro hlt
    have := hD hlt
    rw [show (0:Nat) + (solveLoop grey g vs transfers fuel qs (.fin 0)).2 - 1 =
      (solveLoop grey g vs transfers fuel qs (.fin 0)).2 - 1 by omega] at this
    exact this

/-- C3 fails as stated: a scene with a single non-emitter element has total
light 0 after the first iteration, the loop check computes
`fabs(0/0 - 1) = NaN`, `NaN > 0.001` is false, and the loop stops after
exactly one iteration — not the two the claim guarantees. -/
theorem solveLoop_single_iteration :
    (solveLoop cxGrey cxGeom [] [] 5 [defQuad] (.fin 0)).2 = 1 := by
  have hr1 : List.range 1 = [0] := rfl
  have hcl : calcLight cxGrey cxGeom (iterateLighting [defQuad] []) [] =
      .fin 0 := by
    norm_num [calcLight, iterateLighting, cxGrey, cxGeom, paraArea, defQuad,
      mulC, addC, smulC, zeroC, whiteC, mulFD, addFD, hr1,
      List.getD_cons_zero]
  have hrel : fabsFD (subFD (divFD (.fin 0)
      (calcLight cxGrey cxGeom (iterateLighting [defQuad] []) [])) (.fin 1)) =
      .nan := by
    rw [hcl]
    norm_num [divFD, subFD, negFD, addFD, fabsFD]
  have hunf : solveLoop cxGrey cxGeom [] [] 5 [defQuad] (.fin 0) =
      (if gtFD (fabsFD (subFD (divFD (.fin 0)
          (calcLight cxGrey cxGeom (iterateLighting [defQuad] []) [])) (.fin 1)))
          convergenceTarget = true then
        ((solveLoop cxGrey cxGeom [] [] 4 (iterateLighting [defQuad] [])
          (calcLight cxGrey cxGeom (iterateLighting [defQuad] []) [])).1,
         (solveLoop cxGrey cxGeom [] [] 4 (iterateLighting [defQuad] [])
          (calcLight cxGrey cxGeom (iterateLighting [defQuad] []) [])).2 + 1)
      else (iterateLighting [defQuad] [], 1)) := rfl
  rw [hunf, hrel, if_neg (by decide)]

theorem convergence_loop_amended_witness :
    lightAt cxGrey cxGeom [] [cxEmitQuad] [] 1 ≠ .fin 0 ∧
    lightAt cxGrey cxGeom [] [cxEmitQuad] [] 1 ≠ .nan ∧
    2 ≤ 2 ∧
    (2 ≤ (solveLoop cxGrey cxGeom [] [] 2 [cxEmitQuad] (.fin 0)).2 ∧
     (solveLoop cxGrey cxGeom [] [] 2 [cxEmitQuad] (.fin 0)).1 =
       iterN [] [cxEmitQuad]
         (solveLoop cxGrey cxGeom [] [] 2 [cxEmitQuad] (.fin 0)).2 ∧
     (∀ s : Nat, s + 1 < (solveLoop cxGrey cxGeom [] [] 2 [cxEmitQuad] (.fin 0)).2 →
       gtFD (relStep cxGrey cxGeom [] [cxEmitQuad] [] s) convergenceTarget = true) ∧
     ((solveLoop cxGrey cxGeom [] [] 2 [cxEmitQuad] (.fin 0)).2 < 2 →
       gtFD (relStep cxGrey cxGeom [] [cxEmitQuad] []
         ((solveLoop cxGrey cxGeom [] [] 2 [cxEmitQuad] (.fin 0)).2 - 1))
         convergenceTarget = false)) := by
  have hr1 : List.range 1 = [0] := rfl
  have hL1 : lightAt cxGrey cxGeom [] [cxEmitQuad] [] 1 = .fin 1 := by
    have h1 : lightAt cxGrey cxGeom [] [cxEmitQuad] [] 1 =
        calcLight cxGrey cxGeom (iterateLighting [cxEmitQuad] []) [] := rfl
    rw [h1]
    norm_num [calcLight, iterateLighting, cxGrey, cxGeom, paraArea, cxEmitQuad,
      defQuad, mulC, addC, smulC, zeroC, whiteC, mulFD, addFD, hr1,
      List.getD_cons_zero]
  have h0 : lightAt cxGrey cxGeom [] [cxEmitQuad] [] 1 ≠ .fin 0 := by
    rw [hL1]
    decide
  have hn : lightAt cxGrey cxGeom [] [cxEmitQuad] [] 1 ≠ .nan := by
    rw [hL1]
    decide
  exact ⟨h0, hn, le_refl 2,
    convergence_loop_amended cxGrey cxGeom [] [] [cxEmitQuad] 2 h0 hn (le_refl 2)⟩

/-- C4: the Analytic per-pair transfer computation does NOT guard the
inverse-square term.  For a camera placed at the element's own centroid
(the coincident source/target pair produced by `calcAllLights` for `j = i`,
or any two elements with coincident centroids) the distance is 0,
`1.0/(l*l)` is `+∞`, `dir.norm()` is `0/0 = NaN`, and both
`calcSingleQuadLight` and `calcSingleQuadSubtended` return NaN — not the
exact zero the spec requires. -/
theorem calcSingleQuadLight_coincident_nan :
    calcSingleQuadLight sqTest 3 cxGeom []
      ⟨⟨.fin 0, .fin 0, .fin 0⟩, ⟨.fin (-1), .fin 0, .fin 0⟩,
       ⟨.fin 0, .fin 0, .fin 0⟩⟩ defQuad = .nan ∧
    calcSingleQuadSubtended sqTest 3 cxGeom []
      ⟨⟨.fin 0, .fin 0, .fin 0⟩, ⟨.fin (-1), .fin 0, .fin 0⟩,
       ⟨.fin 0, .fin 0, .fin 0⟩⟩ defQuad = .nan := by
  constructor <;>
    norm_num [calcSingleQuadLight, calcSingleQuadSubtended, paraCentre,
      paraCross, cxGeom, sqTest, defQuad, lenV, normV, dotV, subV, sqrtFD,
      divFD, mulFD, addFD, subFD, negFD, fmaxFD]

/-- C2 fails as stated: with two identical elements (coincident centroids)
the Analytic `calcAllLights` — which does not skip `j = i` — fills
`T[0][0]` with the degenerate self-pair value NaN, not 0. -/
theorem analytic_diag_not_zero :
    transferAt (analyticCalcAllLights sqTest 3 cxGeom [] [defQuad, defQuad])
      2 0 0 = .nan ∧
    transferAt (analyticCalcAllLights sqTest 3 cxGeom [] [defQuad, defQuad])
      2 0 0 ≠ .fin 0 := by
  have hr2 : List.range 2 = [0, 1] := rfl
  have h : transferAt (analyticCalcAllLights sqTest 3 cxGeom []
      [defQuad, defQuad]) 2 0 0 = .nan := by
    norm_num [transferAt, analyticCalcAllLights, calcSingleQuadLight,
      paraCentre, paraCross, cxGeom, sqTest, defQuad, lenV, normV, dotV,
      subV, sqrtFD, divFD, mulFD, addFD, subFD, negFD, fmaxFD, hr2,
      List.getD_cons_zero]
  exact ⟨h, by rw [h]; decide⟩

theorem mulFD_nan_right (x : FD) : mulFD x .nan = .nan := by
  cases x <;> rfl

theorem dotV_nan_right (v : Vec3) : dotV v ⟨.nan, .nan, .nan⟩ = .nan := by
  show addFD (addFD (mulFD v.x .nan) (mulFD v.y .nan)) (mulFD v.z .nan) = .nan
  rw [mulFD_nan_right, mulFD_nan_right, mulFD_nan_right]
  rfl

theorem dotV_nan_left (v : Vec3) : dotV ⟨.nan, .nan, .nan⟩ v = .nan := rfl

theorem vec3_isFinB_iff {v : Vec3} :
    v.isFinB = true ↔ ∃ a b c : ℚ, v = ⟨.fin a, .fin b, .fin c⟩ := by
  obtain ⟨x, y, z⟩ := v
  cases x <;> cases y <;> cases z <;> simp [Vec3.isFinB, FD.isFinB]

theorem subV_fin (a b c d e f : ℚ) :
    subV ⟨.fin a, .fin b, .fin c⟩ ⟨.fin d, .fin e, .fin f⟩ =
      ⟨.fin (a + -d), .fin (b + -e), .fin (c + -f)⟩ := rfl

theorem dotV_fin (a b c d e f : ℚ) :
    dotV ⟨.fin a, .fin b, .fin c⟩ ⟨.fin d, .fin e, .fin f⟩ =
      .fin (a * d + b * e + c * f) := rfl

theorem fmaxFD_zero_nan : fmaxFD (.fin 0) .nan = .fin 0 := rfl

theorem fmaxFD_zero_fin (d : ℚ) :
    ∃ a : ℚ, 0 ≤ a ∧ fmaxFD (.fin 0) (.fin d) = .fin a := by
  have h : fmaxFD (.fin 0) (.fin d) =
      if leFD (.fin 0) (.fin d) = true then .fin d else .fin 0 := rfl
  by_cases hd : (0:ℚ) ≤ d
  · exact ⟨d, hd, by rw [h, if_pos (by simp [leFD, hd])]⟩
  · exact ⟨0, le_refl 0, by rw [h, if_neg (by simp [leFD, hd])]⟩

theorem flatten_getD {α : Type} (d : α) :
    ∀ (L : List (List α)) (n i j : Nat), (∀ l ∈ L, l.length = n) →
      i < L.length → j < n →
      (L.flatten).getD (i * n + j) d = (L.getD i []).getD j d := by
  intro L
  induction L with
  | nil =>
    intro n i j _ hi _
    exact absurd hi (by simp)
  | cons l t ih =>
    intro n i j hlen hi hj
    cases i with
    | zero =>
      have hl : l.length = n := hlen l (List.mem_cons_self l t)
      rw [show (0 * n + j) = j by omega]
      show (l ++ t.flatten).getD j d = _
      rw [List.getD_append _ _ _ _ (by omega)]
      rfl
    | succ i' =>
      have hl : l.length = n := hlen l (List.mem_cons_self l t)
      show (l ++ t.flatten).getD ((i' + 1) * n + j) d = _
      rw [List.getD_append_right _ _ _ _ (by nlinarith)]
      have hidx : (i' + 1) * n + j - l.length = i' * n + j := by
        rw [hl]
        ring_nf
        omega
      rw [hidx]
      exact ih n i' j (fun x hx => hlen x (List.mem_cons_of_mem _ hx))
        (by simpa using hi) hj

/-- `T[i][j]` of the Analytic `calcAllLights` is literally
`calcSingleQuadLight` with element `i`'s camera and element `j` as the
quad — including on the diagonal `j = i`. -/
theorem analytic_transferAt (sq : ℚ → ℚ) (piQ : ℚ) (g : Geom)
    (vs : List Vec3) (fcs : List Quad) (i j : Nat)
    (hi : i < fcs.length) (hj : j < fcs.length) :
    transferAt (analyticCalcAllLights sq piQ g vs fcs) fcs.length i j =
      calcSingleQuadLight sq piQ g vs
        ⟨paraCentre g (fcs.getD i defQuad) vs,
         subV (paraCentre g (fcs.getD i defQuad) vs)
           (paraCross g (fcs.getD i defQuad) vs),
         ⟨.fin 0, .fin 0, .fin 0⟩⟩
        (fcs.getD j defQuad) := by
  unfold transferAt analyticCalcAllLights
  dsimp only
  rw [flatten_getD (.fin 0)
    ((List.range fcs.length).map (fun k =>
      (List.range fcs.length).map (fun l =>
        calcSingleQuadLight sq piQ g vs
          ⟨paraCentre g (fcs.getD k defQuad) vs,
           subV (paraCentre g (fcs.getD k defQuad) vs)
             (paraCross g (fcs.getD k defQuad) vs),
           ⟨.fin 0, .fin 0, .fin 0⟩⟩
          (fcs.getD l defQuad))))
    fcs.length i j
    (by
      intro l hl
      obtain ⟨k, _, rfl⟩ := List.mem_map.mp hl
      simp)
    (by simpa using hi) hj]
  rw [getD_map_range _ _ _ _ hi, getD_map_range _ _ _ _ hj]

theorem subV_isFinB {u v : Vec3} (hu : u.isFinB = true) (hv : v.isFinB = true) :
    (subV u v).isFinB = true := by
  obtain ⟨a, b, c, rfl⟩ := vec3_isFinB_iff.mp hu
  obtain ⟨d, e, f, rfl⟩ := vec3_isFinB_iff.mp hv
  rw [subV_fin]
  rfl

/-- `calcSingleQuadLight` with the camera eye at the quad's own (finite)
centroid evaluates to NaN: the inverse-square term is `+∞`, the normalized
direction is `0/0 = NaN`, and `0 × ∞ = NaN` survives to the result. -/
theorem calcSingleQuadLight_self_nan (sq : ℚ → ℚ) (hsq0 : sq 0 = 0)
    (piQ : ℚ) (g : Geom) (vs : List Vec3) (cam : Camera) (quad : Quad)
    (hcent : (paraCentre g quad vs).isFinB = true)
    (heye : cam.eyePos = paraCentre g quad vs) :
    calcSingleQuadLight sq piQ g vs cam quad = .nan := by
  obtain ⟨a, b, c, hc⟩ := vec3_isFinB_iff.mp hcent
  have hdir : subV (paraCentre g quad vs) cam.eyePos =
      ⟨.fin 0, .fin 0, .fin 0⟩ := by
    rw [heye, hc, subV_fin, show a + -a = 0 by ring, show b + -b = 0 by ring,
      show c + -c = 0 by ring]
  have hlen : lenV sq ⟨.fin 0, .fin 0, .fin 0⟩ = .fin 0 := by
    unfold lenV
    rw [dotV_fin, show (0:ℚ) * 0 + 0 * 0 + 0 * 0 = 0 by ring]
    simp [sqrtFD, hsq0]
  have hnorm : normV sq ⟨.fin 0, .fin 0, .fin 0⟩ = ⟨.nan, .nan, .nan⟩ := by
    unfold normV
    rw [hlen]
    simp [divFD]
  unfold calcSingleQuadLight
  dsimp only
  rw [hdir, hlen, hnorm, dotV_nan_right, dotV_nan_right, fmaxFD_zero_nan]
  norm_num [mulFD, divFD]

theorem normV_fin_vec (sq : ℚ → ℚ) (hsq : SqrtOK sq) (a b c : ℚ) :
    (∃ u v w : ℚ, normV sq ⟨.fin a, .fin b, .fin c⟩ = ⟨.fin u, .fin v, .fin w⟩) ∨
    normV sq ⟨.fin a, .fin b, .fin c⟩ = ⟨.nan, .nan, .nan⟩ := by
  have hS0 : 0 ≤ a * a + b * b + c * c :=
    add_nonneg (add_nonneg (mul_self_nonneg a) (mul_self_nonneg b))
      (mul_self_nonneg c)
  rcases lt_or_eq_of_le hS0 with hp | hz
  · left
    have hsqS := hsq.2 _ hp
    refine ⟨a / sq (a * a + b * b + c * c), b / sq (a * a + b * b + c * c),
      c / sq (a * a + b * b + c * c), ?_⟩
    unfold normV lenV
    rw [dotV_fin]
    simp [sqrtFD, not_lt.mpr hS0, divFD, ne_of_gt hsqS]
  · right
    have h1 : a * a = 0 := by
      nlinarith [mul_self_nonneg (b : ℚ), mul_self_nonneg (c : ℚ)]
    have h2 : b * b = 0 := by
      nlinarith [mul_self_nonneg (a : ℚ), mul_self_nonneg (c : ℚ)]
    have h3 : c * c = 0 := by
      nlinarith [mul_self_nonneg (a : ℚ), mul_self_nonneg (b : ℚ)]
    rw [mul_self_eq_zero.mp h1, mul_self_eq_zero.mp h2, mul_self_eq_zero.mp h3]
    unfold normV lenV
    rw [dotV_fin, show (0:ℚ) * 0 + 0 * 0 + 0 * 0 = 0 by ring]
    simp [sqrtFD, hsq.1, divFD]

theorem fmax_zero_dot_norm (sq : ℚ → ℚ) (hsq : SqrtOK sq) (p q r : ℚ)
    (dirN : Vec3) (hd : ∃ u v w : ℚ, dirN = ⟨.fin u, .fin v, .fin w⟩) :
    ∃ C : ℚ, 0 ≤ C ∧
      fmaxFD (.fin 0) (dotV (normV sq ⟨.fin p, .fin q, .fin r⟩) dirN) = .fin C := by
  obtain ⟨u, v, w, rfl⟩ := hd
  rcases normV_fin_vec sq hsq p q r with ⟨x, y, z, hn⟩ | hn
  · rw [hn, dotV_fin]
    exact fmaxFD_zero_fin _
  · rw [hn, dotV_nan_left]
    exact ⟨0, le_refl 0, fmaxFD_zero_nan⟩

/-- `calcSingleQuadLight` for a finite camera and a finite quad whose
centroid differs from the eye evaluates to a non-negative finite value. -/
theorem calcSingleQuadLight_offdiag_nonneg (sq : ℚ → ℚ) (hsq : SqrtOK sq)
    (piQ : ℚ) (hpi : 0 < piQ) (g : Geom) (vs : List Vec3) (cam : Camera)
    (quad : Quad)
    (hcent : (paraCentre g quad vs).isFinB = true)
    (heyeF : cam.eyePos.isFinB = true)
    (hlookF : cam.lookAt.isFinB = true)
    (hcrossF : (paraCross g quad vs).isFinB = true)
    (hne : paraCentre g quad vs ≠ cam.eyePos) :
    ∃ q : ℚ, 0 ≤ q ∧ calcSingleQuadLight sq piQ g vs cam quad = .fin q := by
  obtain ⟨a, b, c, hc⟩ := vec3_isFinB_iff.mp hcent
  obtain ⟨d, e, f, he⟩ := vec3_isFinB_iff.mp heyeF
  obtain ⟨la, lb, lc, hl⟩ := vec3_isFinB_iff.mp hlookF
  obtain ⟨u, v, w, hx⟩ := vec3_isFinB_iff.mp hcrossF
  have hdir : subV (paraCentre g quad vs) cam.eyePos =
      ⟨.fin (a + -d), .fin (b + -e), .fin (c + -f)⟩ := by
    rw [hc, he, subV_fin]
  have hS0 : 0 ≤ (a + -d) * (a + -d) + (b + -e) * (b + -e) +
      (c + -f) * (c + -f) :=
    add_nonneg (add_nonneg (mul_self_nonneg _) (mul_self_nonneg _))
      (mul_self_nonneg _)
  have hS : 0 < (a + -d) * (a + -d) + (b + -e) * (b + -e) +
      (c + -f) * (c + -f) := by
    rcases lt_or_eq_of_le hS0 with h | h
    · exact h
    · exfalso
      apply hne
      rw [hc, he]
      have h1 : (a + -d) * (a + -d) = 0 := by
        nlinarith [mul_self_nonneg ((b + -e : ℚ)), mul_self_nonneg ((c + -f : ℚ))]
      have h2 : (b + -e) * (b + -e) = 0 := by
        nlinarith [mul_self_nonneg ((a + -d : ℚ)), mul_self_nonneg ((c + -f : ℚ))]
      have h3 : (c + -f) * (c + -f) = 0 := by
        nlinarith [mul_self_nonneg ((a + -d : ℚ)), mul_self_nonneg ((b + -e : ℚ))]
      have e1 : a = d := by
        have := mul_self_eq_zero.mp h1
        linarith
      have e2 : b = e := by
        have := mul_self_eq_zero.mp h2
        linarith
      have e3 : c = f := by
        have := mul_self_eq_zero.mp h3
        linarith
      rw [e1, e2, e3]
  have hsqS := hsq.2 _ hS
  have hlen : lenV sq ⟨.fin (a + -d), .fin (b + -e), .fin (c + -f)⟩ =
      .fin (sq ((a + -d) * (a + -d) + (b + -e) * (b + -e) +
        (c + -f) * (c + -f))) := by
    unfold lenV
    rw [dotV_fin]
    simp [sqrtFD, not_lt.mpr hS0]
  have hr2 : divFD (.fin 1)
      (mulFD (.fin (sq ((a + -d) * (a + -d) + (b + -e) * (b + -e) +
        (c + -f) * (c + -f))))
       (.fin (sq ((a + -d) * (a + -d) + (b + -e) * (b + -e) +
        (c + -f) * (c + -f))))) =
      .fin (1 / (sq ((a + -d) * (a + -d) + (b + -e) * (b + -e) +
        (c + -f) * (c + -f)) *
        sq ((a + -d) * (a + -d) + (b + -e) * (b + -e) +
        (c + -f) * (c + -f)))) := by
    have hnz : sq ((a + -d) * (a + -d) + (b + -e) * (b + -e) +
        (c + -f) * (c + -f)) *
        sq ((a + -d) * (a + -d) + (b + -e) * (b + -e) +
        (c + -f) * (c + -f)) ≠ 0 := ne_of_gt (mul_pos hsqS hsqS)
    simp [mulFD, divFD, hnz]
  have hdirN : normV sq ⟨.fin (a + -d), .fin (b + -e), .fin (c + -f)⟩ =
      ⟨.fin ((a + -d) / sq ((a + -d) * (a + -d) + (b + -e) * (b + -e) +
        (c + -f) * (c + -f))),
       .fin ((b + -e) / sq ((a + -d) * (a + -d) + (b + -e) * (b + -e) +
        (c + -f) * (c + -f))),
       .fin ((c + -f) / sq ((a + -d) * (a + -d) + (b + -e) * (b + -e) +
        (c + -f) * (c + -f)))⟩ := by
    unfold normV
    rw [hlen]
    simp [divFD, ne_of_gt hsqS]
  have hsub2 : subV cam.lookAt cam.eyePos =
      ⟨.fin (la + -d), .fin (lb + -e), .fin (lc + -f)⟩ := by
    rw [hl, he, subV_fin]
  obtain ⟨C, hC0, hC⟩ := fmax_zero_dot_norm sq hsq (la + -d) (lb + -e) (lc + -f)
    (normV sq ⟨.fin (a + -d), .fin (b + -e), .fin (c + -f)⟩)
    (by rw [hdirN]; exact ⟨_, _, _, rfl⟩)
  obtain ⟨A, hA0, hA⟩ := fmaxFD_zero_fin
    (u * ((a + -d) / sq ((a + -d) * (a + -d) + (b + -e) * (b + -e) +
        (c + -f) * (c + -f))) +
     v * ((b + -e) / sq ((a + -d) * (a + -d) + (b + -e) * (b + -e) +
        (c + -f) * (c + -f))) +
     w * ((c + -f) / sq ((a + -d) * (a + -d) + (b + -e) * (b + -e) +
        (c + -f) * (c + -f))))
  refine ⟨C * (1 / (sq ((a + -d) * (a + -d) + (b + -e) * (b + -e) +
      (c + -f) * (c + -f)) *
      sq ((a + -d) * (a + -d) + (b + -e) * (b + -e) +
      (c + -f) * (c + -f)))) * A / piQ,
    div_nonneg (mul_nonneg (mul_nonneg hC0
      (le_of_lt (div_pos one_pos (mul_pos hsqS hsqS)))) hA0)
      (le_of_lt hpi), ?_⟩
  rw [hdirN] at hC
  unfold calcSingleQuadLight
  dsimp only
  rw [hdir, hlen, hr2, hdirN, hsub2, hC, hx, dotV_fin, hA]
  simp [mulFD, divFD, ne_of_gt hpi]

/-- C2 (amended): for the Analytic `calcAllLights` on a mesh whose centroid
and normal queries return finite coordinates and whose centroids are
pairwise distinct, every off-diagonal entry `T[i][j]` (`i ≠ j`) is a
non-negative finite value; but the diagonal is NOT zero: self-pairs
`j = i` are not excluded, and `T[i][i]` evaluates to NaN. -/
theorem analytic_transfer_amended (sq : ℚ → ℚ) (piQ : ℚ) (g : Geom)
    (vs : List Vec3) (fcs : List Quad) (hsq : SqrtOK sq) (hpi : 0 < piQ)
    (hfin : ∀ i, i < fcs.length →
      (paraCentre g (fcs.getD i defQuad) vs).isFinB = true ∧
      (paraCross g (fcs.getD i defQuad) vs).isFinB = true)
    (hdist : ∀ i, i < fcs.length → ∀ j, j < fcs.length → i ≠ j →
      paraCentre g (fcs.getD i defQuad) vs ≠ paraCentre g (fcs.getD j defQuad) vs)
    (i j : Nat) (hi : i < fcs.length) (hj : j < fcs.length) :
    (i = j → transferAt (analyticCalcAllLights sq piQ g vs fcs)
      fcs.length i j = .nan) ∧
    (i ≠ j → ∃ q : ℚ, 0 ≤ q ∧
      transferAt (analyticCalcAllLights sq piQ g vs fcs)
        fcs.length i j = .fin q) := by
  constructor
  · intro hij
    subst hij
    rw [analytic_transferAt sq piQ g vs fcs i i hi hi]
    exact calcSingleQuadLight_self_nan sq hsq.1 piQ g vs _ _ (hfin i hi).1 rfl
  · intro hij
    rw [analytic_transferAt sq piQ g vs fcs i j hi hj]
    exact calcSingleQuadLight_offdiag_nonneg sq hsq piQ hpi g vs _ _
      (hfin j hj).1 (hfin i hi).1
      (subV_isFinB (hfin i hi).1 (hfin i hi).2)
      (hfin j hj).2
      (hdist j hj i hi (Ne.symm hij))

theorem analytic_transfer_amended_witness :
    SqrtOK sqTest ∧ (0:ℚ) < 3 ∧
    (∀ i, i < [defQuad, cx1Quad].length →
      (paraCentre cx2Geom ([defQuad, cx1Quad].getD i defQuad) []).isFinB = true ∧
      (paraCross cx2Geom ([defQuad, cx1Quad].getD i defQuad) []).isFinB = true) ∧
    (∀ i, i < [defQuad, cx1Quad].length → ∀ j, j < [defQuad, cx1Quad].length →
      i ≠ j →
      paraCentre cx2Geom ([defQuad, cx1Quad].getD i defQuad) [] ≠
        paraCentre cx2Geom ([defQuad, cx1Quad].getD j defQuad) []) ∧
    ((0 = 1 → transferAt (analyticCalcAllLights sqTest 3 cx2Geom []
        [defQuad, cx1Quad]) [defQuad, cx1Quad].length 0 1 = .nan) ∧
     (0 ≠ 1 → ∃ q : ℚ, 0 ≤ q ∧
       transferAt (analyticCalcAllLights sqTest 3 cx2Geom []
         [defQuad, cx1Quad]) [defQuad, cx1Quad].length 0 1 = .fin q)) := by
  have hsq : SqrtOK sqTest := by
    constructor
    · norm_num [sqTest]
    · intro q hq
      simp [sqTest, hq]
  have hdist : ∀ i, i < [defQuad, cx1Quad].length →
      ∀ j, j < [defQuad, cx1Quad].length → i ≠ j →
      paraCentre cx2Geom ([defQuad, cx1Quad].getD i defQuad) [] ≠
        paraCentre cx2Geom ([defQuad, cx1Quad].getD j defQuad) [] := by
    intro i hi j hj hne
    have hlen : [defQuad, cx1Quad].length = 2 := rfl
    rw [hlen] at hi hj
    have hcase : (i = 0 ∧ j = 1) ∨ (i = 1 ∧ j = 0) := by omega
    rcases hcase with ⟨hi0, hj1⟩ | ⟨hi1, hj0⟩
    · subst hi0; subst hj1; decide
    · subst hi1; subst hj0; decide
  exact ⟨hsq, by norm_num, by decide, hdist,
    analytic_transfer_amended sqTest 3 cx2Geom [] [defQuad, cx1Quad] hsq
      (by norm_num) (by decide) hdist 0 1 (by decide) (by decide)⟩

end Radiosity
